import Mathlib

/-!
itsdangerous: signed tokens.

A shallow embedding of `its-dangerous.go`: key padding, the base-58 timestamp
codec, the reusable keyed-hash context with its dirty flag, `Sign` and `Unsign`.

Conventions of the embedding.

* A Go `[]byte` is a `List Byte`, a byte being a number below 256.
* Go `int64` values are `Int`s; the one subtraction that can leave the 64-bit
  range (`time.Now().Unix() - s.epoch`) is wrapped explicitly by `wrapInt64`.
* A Go function that can panic returns `Except Fault _`; the fault tells a
  run-time panic of the Go program apart from the loop bound of the embedding
  being exhausted (which is proved never to happen).
* The wall clock read by `Sign` is the argument `now`.
* The keyed hash (`lukechampine.com/blake3`) is not part of the repository; it
  is the parameter `Blake3`, any function from a key and a message to a
  32-byte digest.
-/

namespace itsdangerous

/-- One byte. -/
abbrev Byte := Fin 256

/-- Ways in which a run of the embedded program stops without a result. -/
inductive Fault where
  /-- Go run-time panic: index out of range. -/
  | indexOutOfRange
  /-- Go run-time panic: slice bounds out of range. -/
  | sliceBounds
  /-- Go run-time panic: method call on a nil interface value. -/
  | nilDereference
  /-- The loop bound of the embedding ran out (never the case, see below). -/
  | outOfFuel
  deriving DecidableEq, Repr

deriving instance DecidableEq for Except

/-- The bytes of a Go string constant made of ASCII characters. -/
def bytesOf (s : String) : List Byte :=
  s.toList.map (fun c => Fin.ofNat c.toNat)

/-- Go indexing `b[i]` with an `int` index: panics outside `0 <= i < len(b)`. -/
def index (b : List Byte) (i : Int) : Except Fault Byte :=
  if 0 ≤ i then
    match b.get? i.toNat with
    | some c => .ok c
    | none => .error .indexOutOfRange
  else .error .indexOutOfRange

/-- Go assignment `b[i] = c` with an `int` index: panics outside `0 <= i < len(b)`. -/
def assign (b : List Byte) (i : Int) (c : Byte) : Except Fault (List Byte) :=
  if 0 ≤ i ∧ i.toNat < b.length then .ok (b.set i.toNat c)
  else .error .indexOutOfRange

/-- Go reslicing `t[0:hi]` of a slice with the given capacity, whose backing
array is still zero beyond `len(t)`: panics when `hi` exceeds the capacity. -/
def reslice (t : List Byte) (cap hi : Nat) : Except Fault (List Byte) :=
  if hi ≤ cap then .ok (t.take hi ++ List.replicate (hi - t.length) 0)
  else .error .sliceBounds

/-- Wrap-around of a 64-bit signed integer operation. -/
def wrapInt64 (x : Int) : Int :=
  (x + 2 ^ 63) % 2 ^ 64 - 2 ^ 63

/-! ## Key padding -/

/-- The loop of `padSecret`: `str = str + " "`, `n` times. -/
def padSecret.loop : Nat → List Byte → List Byte
  | 0, str => str
  | n + 1, str => padSecret.loop n (str ++ bytesOf " ")

/-- `padSecret` makes the key at least 32 bytes long. -/
def padSecret (key : List Byte) : List Byte :=
  if key.length < 32 then padSecret.loop (32 - key.length) key
  else key

/-! ## Base-58 codec -/

/-- The characters used during base-58 encoding. -/
def encodeBase58Map : List Byte :=
  bytesOf "123456789abcdefghijkmnopqrstuvwxyzABCDEFGHJKLMNPQRSTUVWXYZ"

/-- The loop of `encodeBase58Len`, at most `fuel` iterations. -/
def encodeBase58Len.loop : Nat → Int → Nat → Except Fault Nat
  | 0, _, _ => .error .outOfFuel
  | fuel + 1, i, l =>
    if i ≥ 58 then encodeBase58Len.loop fuel (Int.tdiv i 58) (l + 1)
    else .ok l

/-- `encodeBase58Len` returns the length of base-58 encoded `i`. -/
def encodeBase58Len (i : Int) : Except Fault Nat :=
  encodeBase58Len.loop (i.toNat + 1) i 1

/-- The loop of `encodeBase58`, at most `fuel` iterations, then the last
assignment `b[p] = encodeBase58Map[i]`. -/
def encodeBase58.loop : Nat → Int → Int → List Byte → Except Fault (List Byte)
  | 0, _, _, _ => .error .outOfFuel
  | fuel + 1, i, p, b =>
    if i ≥ 58 then
      match index encodeBase58Map (Int.tmod i 58) with
      | .error e => .error e
      | .ok c =>
        match assign b p c with
        | .error e => .error e
        | .ok b => encodeBase58.loop fuel (Int.tdiv i 58) (p - 1) b
    else
      match index encodeBase58Map i with
      | .error e => .error e
      | .ok c => assign b p c

/-- `encodeBase58` encodes `i` into `b`. -/
def encodeBase58 (i : Int) (b : List Byte) : Except Fault (List Byte) :=
  encodeBase58.loop (i.toNat + 1) i ((b.length : Int) - 1) b

/-! ## Library functions the signer calls -/

/-- The alphabet of Go's `base64.URLEncoding`. -/
def encodeURL : List Byte :=
  bytesOf "ABCDEFGHIJKLMNOPQRSTUVWXYZabcdefghijklmnopqrstuvwxyz0123456789-_"

/-- The symbol `enc.encode[v]` of a 6-bit value. -/
def encodeURL.at (v : Nat) : Byte :=
  encodeURL.getD v 0

/-- Go's `base64.RawURLEncoding.EncodedLen(n)` (no padding). -/
def RawURLEncoding.EncodedLen (n : Nat) : Nat :=
  n / 3 * 4 + (n % 3 * 8 + 5) / 6

/-- The symbols Go's `base64.RawURLEncoding.Encode` produces for `src`: four
for each full group of three bytes, then two or three for a remainder of one or
two bytes, without padding. -/
def RawURLEncoding.symbols : List Byte → List Byte
  | a :: b :: c :: rest =>
    let val := a.val <<< 16 ||| b.val <<< 8 ||| c.val
    encodeURL.at (val >>> 18 &&& 0x3F) :: encodeURL.at (val >>> 12 &&& 0x3F) ::
      encodeURL.at (val >>> 6 &&& 0x3F) :: encodeURL.at (val &&& 0x3F) ::
      RawURLEncoding.symbols rest
  | [a, b] =>
    let val := a.val <<< 16 ||| b.val <<< 8
    [encodeURL.at (val >>> 18 &&& 0x3F), encodeURL.at (val >>> 12 &&& 0x3F),
      encodeURL.at (val >>> 6 &&& 0x3F)]
  | [a] =>
    let val := a.val <<< 16
    [encodeURL.at (val >>> 18 &&& 0x3F), encodeURL.at (val >>> 12 &&& 0x3F)]
  | [] => []

/-- Go's `base64.RawURLEncoding.Encode(dst, src)`: writes the symbols of `src`
at the start of `dst`, and panics when `dst` is too short for them. -/
def RawURLEncoding.Encode (dst src : List Byte) : Except Fault (List Byte) :=
  let out := RawURLEncoding.symbols src
  if out.length ≤ dst.length then .ok (out ++ dst.drop out.length)
  else .error .indexOutOfRange

/-- Go's `subtle.ConstantTimeCompare(x, y)`: 1 when the two slices have equal
contents, 0 otherwise (also when the lengths differ). -/
def ConstantTimeCompare (x y : List Byte) : Int :=
  if x = y then 1 else 0

/-- The keyed hash of `lukechampine.com/blake3`, which is outside this
repository: `sum size key msg` is the `size`-byte digest of `msg` under `key`. -/
structure Blake3 where
  /-- The digest of a message under a key. -/
  sum : Nat → List Byte → List Byte → List Byte
  /-- The digest has the size asked for. -/
  length_sum : ∀ size key msg, (sum size key msg).length = size

/-- The `hash.Hash` built by `blake3.New(size, key)`: it remembers the key and
the bytes written since the last reset. -/
structure Hasher where
  /-- The digest size asked for. -/
  size : Nat
  /-- The key given to `blake3.New`. -/
  key : List Byte
  /-- The bytes written since creation or the last `Reset`. -/
  written : List Byte
  deriving DecidableEq, Repr

/-- `blake3.New(size, key)`. -/
def Blake3.New (size : Nat) (key : List Byte) : Hasher :=
  { size := size, key := key, written := [] }

/-- `h.Size()`. -/
def Hasher.Size (h : Hasher) : Nat := h.size

/-- `h.Reset()`. -/
def Hasher.Reset (h : Hasher) : Hasher := { h with written := [] }

/-- `h.Write(p)`. -/
def Hasher.Write (h : Hasher) (p : List Byte) : Hasher :=
  { h with written := h.written ++ p }

/-- `h.Sum(nil)`: the digest of everything written so far. -/
def Hasher.Sum (B : Blake3) (h : Hasher) : List Byte :=
  B.sum h.size h.key h.written

/-- A Go byte slice under construction: its elements and its capacity. The
backing array beyond the elements is zero, as `make` leaves it. -/
structure Slice where
  /-- The elements, `len(t)` of them. -/
  elems : List Byte
  /-- The capacity `cap(t)`. -/
  cap : Nat
  deriving DecidableEq, Repr

/-- `make([]byte, 0, cap)`. -/
def Slice.make (cap : Nat) : Slice := { elems := [], cap := cap }

/-- `append(t, x...)`: in place when the capacity allows it, and otherwise into
a new array that is at least large enough. -/
def Slice.append (t : Slice) (x : List Byte) : Slice :=
  { elems := t.elems ++ x, cap := max t.cap (t.elems.length + x.length) }

/-- Reslicing `t[0:hi]`: panics when `hi` exceeds the capacity. -/
def Slice.reslice (t : Slice) (hi : Nat) : Except Fault Slice :=
  match itsdangerous.reslice t.elems t.cap hi with
  | .error e => .error e
  | .ok elems => .ok { t with elems := elems }

/-! ## The signer -/

/-- `Sword` is the main struct used to sign and unsign data. The mutex is not
modelled: calls are sequential. -/
structure Sword where
  /-- The keyed hash context; `none` is Go's nil interface value. -/
  hash : Option Hasher
  /-- Whether the hash context was used since its last reset. -/
  dirty : Bool
  /-- Whether tokens carry a timestamp. -/
  timestamp : Bool
  /-- The epoch subtracted from the clock. -/
  epoch : Int
  deriving DecidableEq, Repr

/-- The errors `Unsign` returns. -/
inductive Err where
  /-- The token's signature is not valid. -/
  | ErrInvalidSignature
  /-- The token is too short to be valid. -/
  | ErrShortToken
  deriving DecidableEq, Repr

/-- `Epoch` is a functional option that sets the epoch. -/
def Epoch (e : Int) : Sword → Sword :=
  fun s => { s with epoch := e }

/-- `Timestamp` is a functional option that adds a timestamp to signatures. -/
def Timestamp (s : Sword) : Sword :=
  { s with timestamp := true }

/-- `New` takes a secret key and options and returns a new `Sword`. (The decode
map it also fills is global state that `Sign` and `Unsign` do not read; that
loop is `New.decodeMap` below.) -/
def New (key : List Byte) (options : List (Sword → Sword)) : Sword :=
  let key := padSecret key
  let s : Sword := { hash := none, dirty := false, timestamp := false, epoch := 0 }
  let s := options.foldl (fun s opt => opt s) s
  { s with hash := some (Blake3.New 32 key) }

/-- `sign` creates the encoded signature of `payload` and writes it to `dst`;
it returns the new contents of `dst` and the new state of the signer. -/
def Sword.sign (B : Blake3) (s : Sword) (dst payload : List Byte) :
    Except Fault (List Byte × Sword) :=
  match s.hash with
  | none => .error .nilDereference
  | some hash =>
    let hash := if s.dirty then hash.Reset else hash
    let s := { s with hash := some hash, dirty := true }
    let hash := hash.Write payload
    let s := { s with hash := some hash }
    let h := hash.Sum B
    match RawURLEncoding.Encode dst h with
    | .error e => .error e
    | .ok dst => .ok (dst, s)

/-- The first part of `Sign`: the slice holding the data and, when timestamps
are on, the separator and the base-58 timestamp. -/
def Sword.Sign.build (s : Sword) (now : Int) (data : List Byte) (el : Nat) :
    Except Fault Slice :=
  if s.timestamp then
    let ts := wrapInt64 (now - s.epoch)
    match encodeBase58Len ts with
    | .error e => .error e
    | .ok etl =>
      let t := Slice.make (data.length + etl + el + 2)
      let t := t.append data
      let t := t.append (bytesOf ".")
      match t.reslice (t.elems.length + etl) with
      | .error e => .error e
      | .ok t =>
        match encodeBase58 ts t.elems with
        | .error e => .error e
        | .ok elems => .ok { t with elems := elems }
  else
    let t := Slice.make (data.length + el + 1)
    .ok (t.append data)

/-- `Sign` signs data and returns the token `data.signature`, or
`data.timestamp.signature` when timestamps are on. -/
def Sword.Sign (B : Blake3) (s : Sword) (now : Int) (data : List Byte) :
    Except Fault (List Byte × Sword) :=
  match s.hash with
  | none => .error .nilDereference
  | some hash =>
    let el := RawURLEncoding.EncodedLen hash.Size
    match Sword.Sign.build s now data el with
    | .error e => .error e
    | .ok t =>
      let t := t.append (bytesOf ".")
      let tl := t.elems.length
      match t.reslice (tl + el) with
      | .error e => .error e
      | .ok t =>
        match s.sign B (t.elems.drop tl) (t.elems.take (tl - 1)) with
        | .error e => .error e
        | .ok (dst, s) => .ok (t.elems.take tl ++ dst, s)

/-- `Unsign` validates a signature and if successful returns the data portion
of the token; otherwise it returns an error and nil for the data. -/
def Sword.Unsign (B : Blake3) (s : Sword) (token : List Byte) :
    Except Fault ((Option (List Byte) × Option Err) × Sword) :=
  match s.hash with
  | none => .error .nilDereference
  | some hash =>
    let tl := token.length
    let el := RawURLEncoding.EncodedLen hash.Size
    if tl < el + 2 then .ok ((none, some .ErrShortToken), s)
    else
      let dst := List.replicate el (0 : Byte)
      match s.sign B dst (token.take (tl - (el + 1))) with
      | .error e => .error e
      | .ok (dst, s) =>
        if ConstantTimeCompare (token.drop (tl - el)) dst ≠ 1 then
          .ok ((none, some .ErrInvalidSignature), s)
        else .ok ((some (token.take (tl - (el + 1))), none), s)

/-- A stand-in keyed digest, used only to run the embedding on concrete
inputs: byte `i` of the digest mixes the key, the message and `i`. -/
def demoBlake3 : Blake3 where
  sum size key msg :=
    (List.range size).map fun i =>
      Fin.ofNat ((key ++ msg).foldl (fun acc b => acc * 31 + b.val + i) 7)
  length_sum := by intro size key msg; simp

/-! ## Notions the statements are written with -/

/-- The base-58 numeral of `n`, most significant symbol first, without leading
zero symbols; the numeral of 0 is the single symbol of value 0. -/
def base58Numeral (n : Nat) : List Byte :=
  if n = 0 then [encodeBase58Map.getD 0 0]
  else (Nat.digits 58 n).reverse.map fun d => encodeBase58Map.getD d 0

/-- The signature of a message under a key: the unpadded URL-safe base64 of
the 32-byte keyed digest. -/
def signature (B : Blake3) (key m : List Byte) : List Byte :=
  RawURLEncoding.symbols (B.sum 32 key m)

/-- A signer that is ready for use under the hash key `key`: its hash context
was built by `blake3.New(32, key)`, and holds no written bytes unless the dirty
flag is set. Every signer `New` returns is so, and stays so. -/
def Sword.ready (s : Sword) (key : List Byte) : Prop :=
  match s.hash with
  | none => False
  | some h => h.size = 32 ∧ h.key = key ∧ (s.dirty = false → h.written = [])

instance (s : Sword) (key : List Byte) : Decidable (s.ready key) := by
  unfold Sword.ready
  cases s.hash <;> infer_instance

/-- The state of a signer after it signed the message `m`. -/
def Sword.after (s : Sword) (m : List Byte) : Sword :=
  { s with hash := s.hash.map fun h => { h with written := m }, dirty := true }

/-- The functional options the package exports. -/
inductive Opt where
  /-- The option `Epoch(e)`. -/
  | epoch (e : Int)
  /-- The option `Timestamp`. -/
  | timestamp

/-- The Go function an option stands for. -/
def Opt.fn : Opt → Sword → Sword
  | .epoch e => Epoch e
  | .timestamp => Timestamp

/-- One call on a signer: `Sign` (with the clock reading it sees) or `Unsign`. -/
inductive Call where
  /-- A call `s.Sign(data)` made when the clock reads `now`. -/
  | sign (now : Int) (data : List Byte)
  /-- A call `s.Unsign(token)`. -/
  | unsign (token : List Byte)

/-- The state of the signer after one call. -/
def Sword.step (B : Blake3) (s : Sword) : Call → Except Fault Sword
  | .sign now data =>
    match s.Sign B now data with
    | .error e => .error e
    | .ok (_, s) => .ok s
  | .unsign token =>
    match s.Unsign B token with
    | .error e => .error e
    | .ok (_, s) => .ok s

/-- The state of the signer after a sequence of calls. -/
def Sword.run (B : Blake3) (s : Sword) : List Call → Except Fault Sword
  | [] => .ok s
  | c :: cs =>
    match s.step B c with
    | .error e => .error e
    | .ok s => Sword.run B s cs

/-- A key for concrete runs. -/
def demoKey : List Byte := bytesOf "k"

/-- A signer without options for concrete runs. -/
def demoSigner : Sword := New demoKey (([] : List Opt).map Opt.fn)

/-- The token `demoSigner` returns for the payload `"a"` under `demoBlake3`. -/
def demoToken : List Byte :=
  bytesOf "a" ++ [46] ++ signature demoBlake3 (padSecret demoKey) (bytesOf "a")

/-- A signer with timestamps on and epoch 0 for concrete runs. -/
def demoStamper : Sword := New demoKey ([Opt.timestamp].map Opt.fn)

/-- The Go zero value of the global `decodeBase58Map`, a `[256]byte`: what it
holds before `New` ran for the first time. -/
def decodeBase58Map.zero : List Byte := List.replicate 256 0

/-- The loop of `New` that fills the global decode map `m`:
`decodeBase58Map[encodeBase58Map[i]] = byte(i)` for `i` from 0 up to
`len(encodeBase58Map) - 1`. -/
def New.decodeMap (m : List Byte) : List Byte :=
  (List.range encodeBase58Map.length).foldl
    (fun m i => m.set (encodeBase58Map.getD i 0).val (Fin.ofNat i)) m

/-- `decodeBase58` parses the base-58 bytes `b` into an `int64`, reading the
global decode map `m`; the arithmetic wraps around as `int64` does. -/
def decodeBase58 (m : List Byte) (b : List Byte) : Int :=
  b.foldl (fun id c => wrapInt64 (wrapInt64 (id * 58) + ((m.getD c.val 0).val : Int))) 0

/-- The value of a byte as a base-58 symbol: its index in the alphabet, and 0
for a byte outside the alphabet. -/
def base58Value (c : Byte) : Nat :=
  if c ∈ encodeBase58Map then encodeBase58Map.indexOf c else 0

/-- The bytes of `d` after its last `'.'` (all of `d` when it has none). -/
def afterLastDot (d : List Byte) : List Byte :=
  (d.reverse.takeWhile fun c => c ≠ 46).reverse

/-- The bytes of `d` before its last `'.'` (none when it has no `'.'`). -/
def beforeLastDot (d : List Byte) : List Byte :=
  (d.reverse.dropWhile fun c => c ≠ 46).tail.reverse

/-- The positional value of `b` read as a base-58 numeral, most significant
symbol first: the sum over `i` of `value(b[i]) * 58^(len(b)-1-i)`. -/
def positionalValue (b : List Byte) : Nat :=
  Finset.sum (Finset.range b.length) fun i => base58Value (b.getD i 0) * 58 ^ (b.length - 1 - i)

/-- The 68-byte key of the test `TestNewSecretTooBig`. -/
def bigSecret : List Byte :=
  bytesOf "B1nzyRateLid;flkjasdl;fjasd;lkfjkl;ljasd;fkljsda;fkljasd;klfj;asdjts"

/-! ## The codec -/

theorem encodeBase58Map_length : encodeBase58Map.length = 58 := by decide

theorem index_encodeBase58Map (d : Nat) (h : d < 58) :
    index encodeBase58Map (d : Int) = .ok (encodeBase58Map.getD d 0) := by
  have hl : d < encodeBase58Map.length := by rw [encodeBase58Map_length]; exact h
  simp [index, List.getD, List.getElem?_eq_getElem hl]

theorem base58Numeral_small (n : Nat) (h : n < 58) :
    base58Numeral n = [encodeBase58Map.getD n 0] := by
  unfold base58Numeral
  by_cases h0 : n = 0
  · simp [h0]
  · rw [if_neg h0, Nat.digits_def' (by norm_num) (Nat.pos_of_ne_zero h0)]
    have h1 : n / 58 = 0 := Nat.div_eq_of_lt h
    simp [h1, Nat.mod_eq_of_lt h]

theorem base58Numeral_step (n : Nat) (h : 58 ≤ n) :
    base58Numeral n = base58Numeral (n / 58) ++ [encodeBase58Map.getD (n % 58) 0] := by
  have h0 : n ≠ 0 := by omega
  have h1 : n / 58 ≠ 0 := by
    have := Nat.div_pos h (by norm_num : 0 < 58)
    omega
  unfold base58Numeral
  rw [if_neg h0, if_neg h1, Nat.digits_def' (by norm_num) (Nat.pos_of_ne_zero h0)]
  simp

theorem base58Numeral_length_pos (n : Nat) : 1 ≤ (base58Numeral n).length := by
  by_cases h : n < 58
  · simp [base58Numeral_small n h]
  · rw [base58Numeral_step n (by omega)]
    simp

theorem encodeBase58Len_loop (fuel : Nat) :
    ∀ (n l : Nat), n < fuel →
      encodeBase58Len.loop fuel (n : Int) l = .ok (l + (base58Numeral n).length - 1) := by
  induction fuel with
  | zero => intro n l h; omega
  | succ fuel ih =>
    intro n l h
    unfold encodeBase58Len.loop
    by_cases h58 : 58 ≤ n
    · have hc : (n : Int) ≥ 58 := by exact_mod_cast h58
      have hd : Int.tdiv (n : Int) 58 = ((n / 58 : Nat) : Int) := by
        rw [Int.ofNat_tdiv]; rfl
      rw [if_pos hc, hd, ih (n / 58) (l + 1) (by omega), base58Numeral_step n h58]
      have := base58Numeral_length_pos (n / 58)
      congr 1
      simp only [List.length_append, List.length_singleton]
      omega
    · have hc : ¬ (n : Int) ≥ 58 := by
        intro hc
        exact h58 (by exact_mod_cast hc)
      rw [if_neg hc, base58Numeral_small n (by omega)]
      simp

theorem encodeBase58Len_eq (i : Int) (h : 0 ≤ i) :
    encodeBase58Len i = .ok (base58Numeral i.toNat).length := by
  unfold encodeBase58Len
  have hi : ((i.toNat : Nat) : Int) = i := Int.toNat_of_nonneg h
  have := encodeBase58Len_loop (i.toNat + 1) i.toNat 1 (by omega)
  rw [hi] at this
  rw [this]
  congr 1
  omega

theorem assign_middle (pre post : List Byte) (x c : Byte) (p : Int)
    (hp : p = (pre.length : Int)) :
    assign (pre ++ x :: post) p c = .ok (pre ++ c :: post) := by
  subst hp
  unfold assign
  have h1 : (0 : Int) ≤ (pre.length : Int) ∧
      ((pre.length : Int)).toNat < (pre ++ x :: post).length := by
    constructor
    · exact Int.ofNat_nonneg _
    · simp
  rw [if_pos h1, Int.toNat_ofNat, List.set_append_right _ _ (le_refl _)]
  simp

theorem encodeBase58_loop (fuel : Nat) :
    ∀ (n : Nat) (pre mid post : List Byte), n < fuel →
      mid.length = (base58Numeral n).length →
      encodeBase58.loop fuel (n : Int) ((pre.length : Int) + (mid.length : Int) - 1)
          (pre ++ mid ++ post) = .ok (pre ++ base58Numeral n ++ post) := by
  induction fuel with
  | zero => intro n pre mid post h; omega
  | succ fuel ih =>
    intro n pre mid post h hmid
    unfold encodeBase58.loop
    by_cases h58 : 58 ≤ n
    · have hc : (n : Int) ≥ 58 := by exact_mod_cast h58
      have hd : Int.tdiv (n : Int) 58 = ((n / 58 : Nat) : Int) := by
        rw [Int.ofNat_tdiv]; rfl
      have hm : Int.tmod (n : Int) 58 = ((n % 58 : Nat) : Int) := by
        rw [Int.ofNat_tmod]; rfl
      rw [if_pos hc, hm, index_encodeBase58Map _ (Nat.mod_lt _ (by norm_num))]
      rw [base58Numeral_step n h58] at hmid ⊢
      simp only [List.length_append, List.length_singleton] at hmid
      obtain ⟨mid', x, rfl⟩ : ∃ mid' x, mid = mid' ++ [x] := by
        refine ⟨mid.dropLast, mid.getLast (by intro hnil; simp [hnil] at hmid), ?_⟩
        exact (List.dropLast_append_getLast _).symm
      have hmid' : mid'.length = (base58Numeral (n / 58)).length := by
        simpa using hmid
      have e1 : pre ++ (mid' ++ [x]) ++ post = (pre ++ mid') ++ x :: post := by simp
      have hassign := assign_middle (pre ++ mid') post x (encodeBase58Map.getD (n % 58) 0)
          ((pre.length : Int) + ((mid' ++ [x]).length : Int) - 1) (by simp; omega)
      rw [e1]
      simp only [hassign]
      have hp' : (pre.length : Int) + ((mid' ++ [x]).length : Int) - 1 - 1
          = (pre.length : Int) + (mid'.length : Int) - 1 := by
        simp only [List.length_append, List.length_singleton, Nat.cast_add, Nat.cast_one]
        omega
      have e2 : pre ++ mid' ++ encodeBase58Map.getD (n % 58) 0 :: post
          = pre ++ mid' ++ (encodeBase58Map.getD (n % 58) 0 :: post) := by simp
      rw [hd, hp', e2, ih (n / 58) pre mid' _ (by omega) hmid']
      simp
    · have hc : ¬ (n : Int) ≥ 58 := by
        intro hc
        exact h58 (by exact_mod_cast hc)
      rw [if_neg hc, index_encodeBase58Map n (by omega)]
      rw [base58Numeral_small n (by omega)] at hmid ⊢
      obtain ⟨x, rfl⟩ : ∃ x, mid = [x] := List.length_eq_one.mp (by simpa using hmid)
      have e1 : pre ++ [x] ++ post = pre ++ x :: post := by simp
      have hassign := assign_middle pre post x (encodeBase58Map.getD n 0)
          ((pre.length : Int) + (([x] : List Byte).length : Int) - 1) (by simp)
      rw [e1]
      simp only [hassign]
      simp

/-- Encoding a non-negative `i` into a buffer whose last bytes make room for
exactly the numeral of `i` overwrites those bytes and nothing else. -/
theorem encodeBase58_eq (i : Int) (h : 0 ≤ i) (pre mid : List Byte)
    (hmid : mid.length = (base58Numeral i.toNat).length) :
    encodeBase58 i (pre ++ mid) = .ok (pre ++ base58Numeral i.toNat) := by
  unfold encodeBase58
  have hi : ((i.toNat : Nat) : Int) = i := Int.toNat_of_nonneg h
  have := encodeBase58_loop (i.toNat + 1) i.toNat pre mid [] (by omega) hmid
  rw [hi] at this
  simpa using this

/-- Encoding a negative number panics, whatever the buffer. -/
theorem encodeBase58_neg (i : Int) (h : i < 0) (b : List Byte) :
    encodeBase58 i b = .error .indexOutOfRange := by
  unfold encodeBase58
  have h0 : i.toNat = 0 := Int.toNat_eq_zero.mpr (by omega)
  rw [h0]
  unfold encodeBase58.loop
  rw [if_neg (by omega)]
  unfold index
  rw [if_neg (by omega)]

/-! ## The signing primitive -/

theorem bytesOf_dot : bytesOf "." = [46] := by decide

theorem symbols_length (src : List Byte) :
    (RawURLEncoding.symbols src).length = RawURLEncoding.EncodedLen src.length := by
  induction src using RawURLEncoding.symbols.induct with
  | case1 a b c rest ih =>
    simp only [RawURLEncoding.symbols, List.length_cons, ih, RawURLEncoding.EncodedLen]
    omega
  | case2 a b => simp [RawURLEncoding.symbols, RawURLEncoding.EncodedLen]
  | case3 a => simp [RawURLEncoding.symbols, RawURLEncoding.EncodedLen]
  | case4 => simp [RawURLEncoding.symbols, RawURLEncoding.EncodedLen]

theorem signature_length (B : Blake3) (key m : List Byte) :
    (signature B key m).length = 43 := by
  unfold signature
  rw [symbols_length, B.length_sum]
  rfl

theorem ready_after (s : Sword) (key m : List Byte) (h : s.ready key) :
    (s.after m).ready key := by
  unfold Sword.ready at h ⊢
  unfold Sword.after
  cases hs : s.hash with
  | none => simp [hs] at h
  | some hash =>
    simp only [hs] at h
    simp [h.1, h.2.1]

theorem after_after (s : Sword) (m m' : List Byte) : (s.after m).after m' = s.after m' := by
  unfold Sword.after
  cases s.hash <;> simp

theorem after_timestamp (s : Sword) (m : List Byte) : (s.after m).timestamp = s.timestamp := rfl

theorem after_epoch (s : Sword) (m : List Byte) : (s.after m).epoch = s.epoch := rfl

theorem after_dirty (s : Sword) (m : List Byte) : (s.after m).dirty = true := rfl

/-- On a ready signer `sign` writes the signature of the payload over the first
43 bytes of `dst`; the digest depends on the key and the payload only. -/
theorem sign_eq (B : Blake3) (s : Sword) (key dst m : List Byte) (h : s.ready key)
    (hdst : 43 ≤ dst.length) :
    s.sign B dst m = .ok (signature B key m ++ dst.drop 43, s.after m) := by
  unfold Sword.ready at h
  cases hs : s.hash with
  | none => simp [hs] at h
  | some hash =>
    simp only [hs] at h
    obtain ⟨hsize, hkey, hw⟩ := h
    have hsum : (if s.dirty = true then hash.Reset else hash).Write m
        = { hash with written := m } := by
      cases hd : s.dirty with
      | true => simp [Hasher.Reset, Hasher.Write]
      | false => simp [Hasher.Write, hw hd]
    have hsig : Hasher.Sum B { hash with written := m } = B.sum 32 key m := by
      simp [Hasher.Sum, hsize, hkey]
    have hlen : (RawURLEncoding.symbols (B.sum 32 key m)).length = 43 :=
      signature_length B key m
    simp only [Sword.sign, hs, hsum, hsig, RawURLEncoding.Encode, hlen, if_pos hdst]
    simp [signature, Sword.after, hs]

theorem ready_size (s : Sword) (key : List Byte) (h : s.ready key) :
    ∃ hash, s.hash = some hash ∧ RawURLEncoding.EncodedLen hash.Size = 43 := by
  unfold Sword.ready at h
  cases hs : s.hash with
  | none => simp [hs] at h
  | some hash =>
    simp only [hs] at h
    exact ⟨hash, rfl, by simp [Hasher.Size, h.1, RawURLEncoding.EncodedLen]⟩

/-! ## `Sign` -/

theorem reslice_grow (t : List Byte) (cap n : Nat) (h : t.length + n ≤ cap) :
    Slice.reslice { elems := t, cap := cap } (t.length + n)
      = .ok { elems := t ++ List.replicate n 0, cap := cap } := by
  unfold Slice.reslice reslice
  simp only []
  rw [if_pos h, List.take_of_length_le (by omega), Nat.add_sub_cancel_left]

/-- The second part of `Sign`, once the first part built the bytes `m`. -/
theorem Sign_of_build (B : Blake3) (s : Sword) (key : List Byte) (now : Int)
    (p m : List Byte) (cap : Nat) (h : s.ready key)
    (hbuild : Sword.Sign.build s now p 43 = .ok { elems := m, cap := cap })
    (hcap : m.length + 44 ≤ cap) :
    s.Sign B now p = .ok (m ++ [46] ++ signature B key m, s.after m) := by
  obtain ⟨hash, hs, hel⟩ := ready_size s key h
  generalize hz : List.replicate 43 (0 : Byte) = z
  have hzlen : z.length = 43 := by rw [← hz]; exact List.length_replicate _ _
  have hsign := sign_eq B s key z m h (by omega)
  have happ : Slice.append { elems := m, cap := cap } (bytesOf ".")
      = { elems := m ++ [46], cap := max cap (m.length + 1) } := by
    simp [Slice.append, bytesOf_dot]
  have hres := reslice_grow (m ++ [46]) (max cap (m.length + 1)) 43
    (by simp only [List.length_append, List.length_singleton]; omega)
  rw [hz] at hres
  have hdrop : ((m ++ [46]) ++ z).drop (m ++ [46]).length = z := List.drop_left _ _
  have htake : ((m ++ [46]) ++ z).take ((m ++ [46]).length - 1) = m := by
    rw [List.append_assoc]
    have : (m ++ [46]).length - 1 = m.length := by simp
    rw [this]
    exact List.take_left _ _
  have htake' : ((m ++ [46]) ++ z).take (m ++ [46]).length = m ++ [46] := List.take_left _ _
  have hdz : z.drop 43 = [] := List.drop_of_length_le (by omega)
  simp only [Sword.Sign, hs, hel, hbuild, happ, hres, hdrop, htake, htake', hsign, hdz,
    List.append_nil]

/-- Without timestamps `Sign` returns the data, the separator and the
signature of the data. -/
theorem Sign_plain (B : Blake3) (s : Sword) (key : List Byte) (now : Int) (p : List Byte)
    (h : s.ready key) (ht : s.timestamp = false) :
    s.Sign B now p = .ok (p ++ [46] ++ signature B key p, s.after p) := by
  apply Sign_of_build B s key now p p (p.length + 43 + 1) h
  · simp [Sword.Sign.build, ht, Slice.make, Slice.append]
    omega
  · omega

/-- With timestamps and a non-negative time `Sign` returns the data, the
separator, the base-58 numeral of the time, the separator, and the signature of
everything before that last separator. -/
theorem Sign_stamped (B : Blake3) (s : Sword) (key : List Byte) (now : Int) (p : List Byte)
    (h : s.ready key) (ht : s.timestamp = true) (hts : 0 ≤ wrapInt64 (now - s.epoch)) :
    s.Sign B now p =
      .ok (p ++ [46] ++ base58Numeral (wrapInt64 (now - s.epoch)).toNat ++ [46] ++
            signature B key (p ++ [46] ++ base58Numeral (wrapInt64 (now - s.epoch)).toNat),
          s.after (p ++ [46] ++ base58Numeral (wrapInt64 (now - s.epoch)).toNat)) := by
  generalize hE : base58Numeral (wrapInt64 (now - s.epoch)).toNat = E at *
  have hlen := encodeBase58Len_eq _ hts
  rw [hE] at hlen
  have henc := encodeBase58_eq _ hts (p ++ [46]) (List.replicate E.length (0 : Byte))
    (by rw [hE]; exact List.length_replicate _ _)
  rw [hE] at henc
  apply Sign_of_build B s key now p (p ++ [46] ++ E) (p.length + E.length + 43 + 2) h
  · have happ : (Slice.make (p.length + E.length + 43 + 2)).append p
        = { elems := p, cap := p.length + E.length + 43 + 2 } := by
      simp [Slice.make, Slice.append]
      omega
    have happ2 : Slice.append { elems := p, cap := p.length + E.length + 43 + 2 } (bytesOf ".")
        = { elems := p ++ [46], cap := p.length + E.length + 43 + 2 } := by
      simp [Slice.append, bytesOf_dot]
      omega
    have hres := reslice_grow (p ++ [46]) (p.length + E.length + 43 + 2) E.length
      (by simp only [List.length_append, List.length_singleton]; omega)
    simp only [Sword.Sign.build, ht, if_true, hlen, happ, happ2, hres, henc]
  · simp only [List.length_append, List.length_singleton]
    omega

/-- With timestamps and a negative time `Sign` panics in `encodeBase58`. -/
theorem Sign_negative (B : Blake3) (s : Sword) (key : List Byte) (now : Int) (p : List Byte)
    (h : s.ready key) (ht : s.timestamp = true) (hts : wrapInt64 (now - s.epoch) < 0) :
    s.Sign B now p = .error .indexOutOfRange := by
  obtain ⟨hash, hs, hel⟩ := ready_size s key h
  have hlen : encodeBase58Len (wrapInt64 (now - s.epoch)) = .ok 1 := by
    unfold encodeBase58Len
    have h0 : (wrapInt64 (now - s.epoch)).toNat = 0 := Int.toNat_eq_zero.mpr (by omega)
    rw [h0]
    unfold encodeBase58Len.loop
    rw [if_neg (by omega)]
  have happ : (Slice.make (p.length + 1 + 43 + 2)).append p
      = { elems := p, cap := p.length + 1 + 43 + 2 } := by
    simp [Slice.make, Slice.append]
    omega
  have happ2 : Slice.append { elems := p, cap := p.length + 1 + 43 + 2 } (bytesOf ".")
      = { elems := p ++ [46], cap := p.length + 1 + 43 + 2 } := by
    simp [Slice.append, bytesOf_dot]
  have hres := reslice_grow (p ++ [46]) (p.length + 1 + 43 + 2) 1
    (by simp only [List.length_append, List.length_singleton]; omega)
  simp only [Sword.Sign, hs, hel, Sword.Sign.build, ht, if_true, hlen, happ, happ2, hres,
    encodeBase58_neg _ hts]

/-! ## `Unsign` -/

/-- What `Unsign` returns on a ready signer. -/
theorem Unsign_eq (B : Blake3) (s : Sword) (key : List Byte) (t : List Byte)
    (h : s.ready key) :
    s.Unsign B t =
      .ok (if t.length < 45 then ((none, some .ErrShortToken), s)
        else if t.drop (t.length - 43) = signature B key (t.take (t.length - 44)) then
          ((some (t.take (t.length - 44)), none), s.after (t.take (t.length - 44)))
        else ((none, some .ErrInvalidSignature), s.after (t.take (t.length - 44)))) := by
  obtain ⟨hash, hs, hel⟩ := ready_size s key h
  have hsign := sign_eq B s key (List.replicate 43 (0 : Byte)) (t.take (t.length - 44)) h
    (by simp)
  simp only [Sword.Unsign, hs, hel]
  by_cases hlt : t.length < 45
  · simp [hlt]
  · rw [if_neg (by omega), if_neg hlt]
    simp only [hsign]
    by_cases heq : t.drop (t.length - 43) = signature B key (t.take (t.length - 44))
    · simp [ConstantTimeCompare, heq]
    · simp [ConstantTimeCompare, heq]

/-! ## Signers built by `New` and their later states -/

theorem options_foldl (opts : List Opt) (s : Sword) :
    ((opts.map Opt.fn).foldl (fun s opt => opt s) s).hash = s.hash ∧
    ((opts.map Opt.fn).foldl (fun s opt => opt s) s).dirty = s.dirty := by
  induction opts generalizing s with
  | nil => exact ⟨rfl, rfl⟩
  | cons o opts ih =>
    simp only [List.map_cons, List.foldl_cons]
    obtain ⟨h1, h2⟩ := ih (o.fn s)
    rw [h1, h2]
    cases o <;> exact ⟨rfl, rfl⟩

theorem New_dirty (key : List Byte) (opts : List Opt) :
    (New key (opts.map Opt.fn)).dirty = false := by
  unfold New
  exact (options_foldl opts _).2

theorem New_ready (key : List Byte) (opts : List Opt) :
    (New key (opts.map Opt.fn)).ready (padSecret key) := by
  have hd := New_dirty key opts
  unfold Sword.ready
  simp [New, Blake3.New]

theorem Sign_ready (B : Blake3) (s s1 : Sword) (key : List Byte) (now : Int)
    (p t : List Byte) (h : s.ready key) (hsign : s.Sign B now p = .ok (t, s1)) :
    ∃ m, t = m ++ [46] ++ signature B key m ∧ s1 = s.after m ∧
      (s.timestamp = false → m = p) ∧
      (s.timestamp = true → 0 ≤ wrapInt64 (now - s.epoch) ∧
        m = p ++ [46] ++ base58Numeral (wrapInt64 (now - s.epoch)).toNat) := by
  cases ht : s.timestamp with
  | false =>
    rw [Sign_plain B s key now p h ht] at hsign
    simp only [Except.ok.injEq, Prod.mk.injEq] at hsign
    exact ⟨p, hsign.1.symm, hsign.2.symm, fun _ => rfl, fun hc => by simp at hc⟩
  | true =>
    by_cases hts : 0 ≤ wrapInt64 (now - s.epoch)
    · rw [Sign_stamped B s key now p h ht hts] at hsign
      simp only [Except.ok.injEq, Prod.mk.injEq] at hsign
      exact ⟨_, hsign.1.symm, hsign.2.symm, fun hc => by simp at hc, fun _ => ⟨hts, rfl⟩⟩
    · rw [Sign_negative B s key now p h ht (by omega)] at hsign
      simp at hsign

theorem step_ready (B : Blake3) (s s' : Sword) (key : List Byte) (c : Call)
    (h : s.ready key) (hstep : s.step B c = .ok s') :
    s'.ready key ∧ s'.timestamp = s.timestamp ∧ s'.epoch = s.epoch := by
  cases c with
  | sign now data =>
    unfold Sword.step at hstep
    cases hsign : s.Sign B now data with
    | error e => simp [hsign] at hstep
    | ok r =>
      obtain ⟨t, s1⟩ := r
      simp only [hsign, Except.ok.injEq] at hstep
      subst hstep
      obtain ⟨m, -, hs1, -, -⟩ := Sign_ready B s s1 key now data t h hsign
      subst hs1
      exact ⟨ready_after s key m h, rfl, rfl⟩
  | unsign token =>
    simp only [Sword.step, Unsign_eq B s key token h, Except.ok.injEq] at hstep
    subst hstep
    split_ifs
    · exact ⟨h, rfl, rfl⟩
    · exact ⟨ready_after s key _ h, rfl, rfl⟩
    · exact ⟨ready_after s key _ h, rfl, rfl⟩

theorem run_ready (B : Blake3) (calls : List Call) :
    ∀ (s s' : Sword) (key : List Byte), s.ready key → s.run B calls = .ok s' →
      s'.ready key ∧ s'.timestamp = s.timestamp ∧ s'.epoch = s.epoch := by
  induction calls with
  | nil =>
    intro s s' key h hrun
    simp only [Sword.run, Except.ok.injEq] at hrun
    subst hrun
    exact ⟨h, rfl, rfl⟩
  | cons c cs ih =>
    intro s s' key h hrun
    unfold Sword.run at hrun
    cases hstep : s.step B c with
    | error e => simp [hstep] at hrun
    | ok s1 =>
      simp only [hstep] at hrun
      obtain ⟨h1, h2, h3⟩ := step_ready B s s1 key c h hstep
      obtain ⟨h4, h5, h6⟩ := ih s1 s' key h1 hrun
      exact ⟨h4, h5.trans h2, h6.trans h3⟩

/-- Without timestamps no call panics: every sequence of calls runs to the end. -/
theorem run_plain (B : Blake3) (calls : List Call) :
    ∀ (s : Sword) (key : List Byte), s.ready key → s.timestamp = false →
      ∃ s', s.run B calls = .ok s' := by
  induction calls with
  | nil => intro s key _ _; exact ⟨s, rfl⟩
  | cons c cs ih =>
    intro s key h ht
    have hstep : ∃ s1, s.step B c = .ok s1 := by
      cases c with
      | sign now data =>
        exact ⟨s.after data, by simp only [Sword.step, Sign_plain B s key now data h ht]⟩
      | unsign token =>
        exact ⟨_, by simp only [Sword.step, Unsign_eq B s key token h]; rfl⟩
    obtain ⟨s1, hs1⟩ := hstep
    obtain ⟨h1, h2, -⟩ := step_ready B s s1 key c h hs1
    obtain ⟨s', hs'⟩ := ih s1 key h1 (h2.trans ht)
    exact ⟨s', by simp only [Sword.run, hs1, hs']⟩

/-- A signer built by `New` is, after any calls it served, ready under the
padded key, with the configuration `New` gave it. -/
theorem reached_ready (B : Blake3) (key : List Byte) (opts : List Opt) (calls : List Call)
    (s : Sword) (hrun : (New key (opts.map Opt.fn)).run B calls = .ok s) :
    s.ready (padSecret key) ∧ s.timestamp = (New key (opts.map Opt.fn)).timestamp ∧
      s.epoch = (New key (opts.map Opt.fn)).epoch :=
  run_ready B calls _ s _ (New_ready key opts) hrun

/-- The round trip on a ready signer: `Unsign` accepts what `Sign` returned as
soon as at least one byte precedes the separator, and returns those bytes. -/
theorem Unsign_signed (B : Blake3) (s : Sword) (key m : List Byte) (h : s.ready key)
    (hm : 1 ≤ m.length) :
    s.Unsign B (m ++ [46] ++ signature B key m) = .ok ((some m, none), s.after m) := by
  have hl := signature_length B key m
  have e1 : (m ++ [46] ++ signature B key m).length - 44 = m.length := by
    simp only [List.length_append, List.length_singleton, hl]
    omega
  have e2 : (m ++ [46] ++ signature B key m).length - 43 = (m ++ [46]).length := by
    simp only [List.length_append, List.length_singleton, hl]
    omega
  have e3 : ¬ (m ++ [46] ++ signature B key m).length < 45 := by
    simp only [List.length_append, List.length_singleton, hl]
    omega
  rw [Unsign_eq B s key _ h, if_neg e3, e1, e2, List.drop_left, List.append_assoc,
    List.take_left, if_pos rfl]

/-! ## Round trips -/

/-- C1 (as stated, refuted): no keyed hash makes `Unsign(Sign(p)) = (p, nil)`
hold for every key, configuration and payload. With the empty key, no option
and the empty payload, `Sign` returns the 44 bytes `"." ++ signature`, which
`Unsign` answers with `ErrShortToken`, its length being below 45. -/
theorem roundtrip_fails_for_empty_payload :
    ¬ ∃ B : Blake3, ∀ (key : List Byte) (opts : List Opt) (now : Int) (p : List Byte),
      ∃ t s1 s2, (New key (opts.map Opt.fn)).Sign B now p = .ok (t, s1) ∧
        s1.Unsign B t = .ok ((some p, none), s2) := by
  rintro ⟨B, h⟩
  obtain ⟨t, s1, s2, hsign, hunsign⟩ := h [] [] 0 []
  have hr := New_ready [] []
  obtain ⟨m, ht, hs1, hm, -⟩ := Sign_ready B _ s1 _ 0 [] t hr hsign
  have hm' : m = [] := hm rfl
  subst hm'
  have hlen : t.length < 45 := by
    rw [ht]
    simp [signature_length]
  have hr1 : s1.ready (padSecret []) := by
    rw [hs1]
    exact ready_after _ _ _ hr
  rw [Unsign_eq B s1 _ t hr1, if_pos hlen] at hunsign
  simp at hunsign

/-- C1 (amended): for every key, configuration, clock reading and payload `p`,
`Unsign(Sign(p))` by the same signer returns no error and the bytes that `Sign`
put before the last separator: `p` itself when timestamps are off and `p` has
at least one byte, and `p ++ "." ++ E` (with `E` the base-58 numeral of
`now - epoch`) when timestamps are on and `now - epoch` is not negative. -/
theorem roundtrip_returns_signed_prefix (B : Blake3) (key : List Byte) (opts : List Opt)
    (now : Int) (p : List Byte)
    (h : if (New key (opts.map Opt.fn)).timestamp
          then 0 ≤ wrapInt64 (now - (New key (opts.map Opt.fn)).epoch)
          else 1 ≤ p.length) :
    ∃ t s1 s2, (New key (opts.map Opt.fn)).Sign B now p = .ok (t, s1) ∧
      s1.Unsign B t = .ok ((some (if (New key (opts.map Opt.fn)).timestamp
          then p ++ [46] ++
            base58Numeral (wrapInt64 (now - (New key (opts.map Opt.fn)).epoch)).toNat
          else p), none), s2) := by
  have hr := New_ready key opts
  generalize New key (opts.map Opt.fn) = s at *
  cases ht : s.timestamp with
  | false =>
    simp only [ht, Bool.false_eq_true, if_false] at h ⊢
    exact ⟨_, _, _, Sign_plain B s _ now p hr ht,
      Unsign_signed B _ _ p (ready_after s _ p hr) h⟩
  | true =>
    simp only [ht, if_true] at h ⊢
    refine ⟨_, _, _, Sign_stamped B s _ now p hr ht h,
      Unsign_signed B _ _ _ (ready_after s _ _ hr) ?_⟩
    simp only [List.length_append, List.length_singleton]
    omega

/-- C2: for every key and every payload `p` of at least one byte, with
timestamps off: the token `Sign(p)` returns, on a signer that served any calls
before, is accepted with result `(p, nil)` both by that same signer and by a
different signer that `New` builds from the same key. -/
theorem roundtrip_plain (B : Blake3) (key : List Byte) (opts opts' : List Opt)
    (calls : List Call) (now : Int) (p : List Byte)
    (ht : (New key (opts.map Opt.fn)).timestamp = false) (hp : 1 ≤ p.length) :
    ∃ s t s1 s2 s3, (New key (opts.map Opt.fn)).run B calls = .ok s ∧
      s.Sign B now p = .ok (t, s1) ∧
      s1.Unsign B t = .ok ((some p, none), s2) ∧
      (New key (opts'.map Opt.fn)).Unsign B t = .ok ((some p, none), s3) := by
  obtain ⟨s, hrun⟩ := run_plain B calls _ _ (New_ready key opts) ht
  obtain ⟨hr, hts, -⟩ := reached_ready B key opts calls s hrun
  exact ⟨s, _, _, _, _, hrun, Sign_plain B s _ now p hr (hts.trans ht),
    Unsign_signed B _ _ p (ready_after s _ p hr) hp,
    Unsign_signed B _ _ p (New_ready key opts') hp⟩

/-- C1 (amended), at a concrete input: key `"k"`, timestamps on, epoch 0, clock
at 100 seconds, empty payload. -/
theorem roundtrip_returns_signed_prefix_witness :
    (if (New (bytesOf "k") ([Opt.timestamp].map Opt.fn)).timestamp
      then 0 ≤ wrapInt64 (100 - (New (bytesOf "k") ([Opt.timestamp].map Opt.fn)).epoch)
      else 1 ≤ ([] : List Byte).length) ∧
    ∃ t s1 s2, (New (bytesOf "k") ([Opt.timestamp].map Opt.fn)).Sign demoBlake3 100 []
        = .ok (t, s1) ∧
      s1.Unsign demoBlake3 t = .ok ((some (if
          (New (bytesOf "k") ([Opt.timestamp].map Opt.fn)).timestamp
          then [] ++ [46] ++ base58Numeral
            (wrapInt64 (100 - (New (bytesOf "k") ([Opt.timestamp].map Opt.fn)).epoch)).toNat
          else []), none), s2) :=
  ⟨by decide, roundtrip_returns_signed_prefix demoBlake3 (bytesOf "k") [Opt.timestamp] 100 []
    (by decide)⟩

/-- C2, at a concrete input: key `"k"`, no option, one earlier `Sign` and one
earlier `Unsign`, payload `"a"`; the second signer has timestamps on. -/
theorem roundtrip_plain_witness :
    (New (bytesOf "k") (([] : List Opt).map Opt.fn)).timestamp = false ∧
    1 ≤ (bytesOf "a").length ∧
    ∃ s t s1 s2 s3,
      (New (bytesOf "k") (([] : List Opt).map Opt.fn)).run demoBlake3
        [Call.sign 7 (bytesOf "x"), Call.unsign (bytesOf "y")] = .ok s ∧
      s.Sign demoBlake3 0 (bytesOf "a") = .ok (t, s1) ∧
      s1.Unsign demoBlake3 t = .ok ((some (bytesOf "a"), none), s2) ∧
      (New (bytesOf "k") ([Opt.timestamp].map Opt.fn)).Unsign demoBlake3 t
        = .ok ((some (bytesOf "a"), none), s3) :=
  ⟨by decide, by decide, roundtrip_plain demoBlake3 (bytesOf "k") [] [Opt.timestamp]
    [Call.sign 7 (bytesOf "x"), Call.unsign (bytesOf "y")] 0 (bytesOf "a")
    (by decide) (by decide)⟩

/-! ## Tampering -/

/-- What it takes for a ready signer to accept a token. -/
theorem Unsign_accepts (B : Blake3) (s s' : Sword) (key t d : List Byte) (h : s.ready key)
    (hacc : s.Unsign B t = .ok ((some d, none), s')) :
    45 ≤ t.length ∧ d = t.take (t.length - 44) ∧
      t.drop (t.length - 43) = signature B key d ∧ s' = s.after d := by
  rw [Unsign_eq B s key t h] at hacc
  by_cases hlt : t.length < 45
  · rw [if_pos hlt] at hacc
    simp at hacc
  · rw [if_neg hlt] at hacc
    by_cases heq : t.drop (t.length - 43) = signature B key (t.take (t.length - 44))
    · rw [if_pos heq] at hacc
      simp only [Except.ok.injEq, Prod.mk.injEq, Option.some.injEq, and_true] at hacc
      obtain ⟨hd, hs'⟩ := hacc
      subst hd
      exact ⟨by omega, rfl, heq, hs'.symm⟩
    · rw [if_neg heq] at hacc
      simp at hacc

/-- A ready signer rejects a token of at least 45 bytes whose last 43 bytes
are not the signature of the bytes before the separator position. -/
theorem Unsign_rejects (B : Blake3) (s : Sword) (key t : List Byte) (h : s.ready key)
    (hlen : 45 ≤ t.length)
    (hne : t.drop (t.length - 43) ≠ signature B key (t.take (t.length - 44))) :
    s.Unsign B t = .ok ((none, some .ErrInvalidSignature),
      s.after (t.take (t.length - 44))) := by
  rw [Unsign_eq B s key t h, if_neg (by omega), if_neg hne]

theorem set_ne_self (l : List Byte) (j : Nat) (b : Byte) (hj : j < l.length)
    (hb : l[j]? ≠ some b) : l.set j b ≠ l := by
  intro heq
  apply hb
  rw [← heq]
  exact List.getElem?_set_self hj

/-- C3: for every signer (built by `New`, after any calls) and every token `t`
that its `Sign` returned and its `Unsign` accepted, putting a different byte at
any one position among the last 43 bytes of `t` gives a token that `Unsign`
answers with `(nil, ErrInvalidSignature)`, on that signer right after `Sign` as
well as after the accepting `Unsign`. -/
theorem tampered_signature_rejected (B : Blake3) (key : List Byte) (opts : List Opt)
    (calls : List Call) (s s1 s2 : Sword) (now : Int) (p t d : List Byte) (i : Nat) (b : Byte)
    (hrun : (New key (opts.map Opt.fn)).run B calls = .ok s)
    (hsign : s.Sign B now p = .ok (t, s1))
    (hacc : s1.Unsign B t = .ok ((some d, none), s2))
    (hi : t.length - 43 ≤ i) (hi' : i < t.length) (hb : t[i]? ≠ some b) :
    (∃ s3, s1.Unsign B (t.set i b) = .ok ((none, some .ErrInvalidSignature), s3)) ∧
    (∃ s3, s2.Unsign B (t.set i b) = .ok ((none, some .ErrInvalidSignature), s3)) := by
  obtain ⟨hr, -, -⟩ := reached_ready B key opts calls s hrun
  obtain ⟨m, -, hs1, -, -⟩ := Sign_ready B s s1 _ now p t hr hsign
  have hr1 : s1.ready (padSecret key) := by rw [hs1]; exact ready_after s _ m hr
  obtain ⟨hlen, hd, hsig, hs2⟩ := Unsign_accepts B s1 s2 _ t d hr1 hacc
  have hr2 : s2.ready (padSecret key) := by rw [hs2]; exact ready_after s1 _ d hr1
  have hlen' : 45 ≤ (t.set i b).length := by rw [List.length_set]; exact hlen
  have htake : (t.set i b).take ((t.set i b).length - 44) = d := by
    rw [List.length_set, List.take_set_of_lt b t (by omega), hd]
  have hne : (t.set i b).drop ((t.set i b).length - 43)
      ≠ signature B (padSecret key) ((t.set i b).take ((t.set i b).length - 44)) := by
    rw [htake, ← hsig, List.length_set, List.drop_set, if_neg (by omega)]
    apply set_ne_self
    · rw [List.length_drop]; omega
    · rw [List.getElem?_drop]
      have : t.length - 43 + (i - (t.length - 43)) = i := by omega
      rw [this]
      exact hb
  exact ⟨⟨_, Unsign_rejects B s1 _ _ hr1 hlen' hne⟩, ⟨_, Unsign_rejects B s2 _ _ hr2 hlen' hne⟩⟩

/-- C3, at a concrete input: the token of the payload `"a"` (45 bytes) with
its last byte, at index 44, replaced by the byte 0. -/
theorem tampered_signature_rejected_witness :
    (New demoKey (([] : List Opt).map Opt.fn)).run demoBlake3 [] = .ok demoSigner ∧
    demoSigner.Sign demoBlake3 0 (bytesOf "a")
      = .ok (demoToken, demoSigner.after (bytesOf "a")) ∧
    (demoSigner.after (bytesOf "a")).Unsign demoBlake3 demoToken
      = .ok ((some (bytesOf "a"), none), demoSigner.after (bytesOf "a")) ∧
    demoToken.length - 43 ≤ 44 ∧ 44 < demoToken.length ∧ demoToken[44]? ≠ some 0 ∧
    (∃ s3, (demoSigner.after (bytesOf "a")).Unsign demoBlake3 (demoToken.set 44 0)
      = .ok ((none, some .ErrInvalidSignature), s3)) ∧
    (∃ s3, (demoSigner.after (bytesOf "a")).Unsign demoBlake3 (demoToken.set 44 0)
      = .ok ((none, some .ErrInvalidSignature), s3)) :=
  ⟨by decide, by decide, by decide, by decide, by decide, by decide,
    tampered_signature_rejected demoBlake3 demoKey [] [] demoSigner
      (demoSigner.after (bytesOf "a")) (demoSigner.after (bytesOf "a")) 0 (bytesOf "a")
      demoToken (bytesOf "a") 44 0 (by decide) (by decide) (by decide) (by decide)
      (by decide) (by decide)⟩

/-- What `Unsign` does with a token cut into its three parts: the bytes before
the separator position, the byte at that position, and the last 43 bytes. The
byte at the separator position plays no part. -/
theorem Unsign_parts (B : Blake3) (s : Sword) (key m g : List Byte) (x : Byte)
    (h : s.ready key) (hm : 1 ≤ m.length) (hg : g.length = 43) :
    s.Unsign B (m ++ x :: g) =
      .ok (if g = signature B key m then ((some m, none), s.after m)
        else ((none, some .ErrInvalidSignature), s.after m)) := by
  have e1 : (m ++ x :: g).length - 44 = m.length := by
    simp only [List.length_append, List.length_cons, hg]
    omega
  have e2 : (m ++ x :: g).length - 43 = (m ++ [x]).length := by
    simp only [List.length_append, List.length_cons, List.length_nil, hg]
    omega
  have e3 : ¬ (m ++ x :: g).length < 45 := by
    simp only [List.length_append, List.length_cons, hg]
    omega
  have e4 : m ++ x :: g = (m ++ [x]) ++ g := by simp
  rw [Unsign_eq B s key _ h, if_neg e3, e1, e2, List.take_left]
  rw [e4, List.drop_left]

/-- A token of at least 45 bytes cut into its three parts. -/
theorem token_parts (t : List Byte) (h : 45 ≤ t.length) :
    ∃ x, t = t.take (t.length - 44) ++ x :: t.drop (t.length - 43) := by
  have hlt : t.length - 44 < t.length := by omega
  refine ⟨t[t.length - 44], ?_⟩
  have e : t.length - 43 = t.length - 44 + 1 := by omega
  rw [e, ← List.drop_eq_getElem_cons hlt, List.take_append_drop]

/-! ## The token format -/

/-- C5 (as stated, refuted): no keyed hash makes every accepted byte sequence
a token that `Sign` produces. With the empty key and no option, the bytes
`"a"`, then `"/"`, then the signature of `"a"` are accepted with data `"a"`,
while `Sign` of `"a"` has `"."` in place of `"/"`. -/
theorem accepted_token_need_not_be_signed :
    ¬ ∃ B : Blake3, ∀ (t p : List Byte) (s' : Sword),
      (New [] (([] : List Opt).map Opt.fn)).Unsign B t = .ok ((some p, none), s') →
      ∃ s1, (New [] (([] : List Opt).map Opt.fn)).Sign B 0 p = .ok (t, s1) := by
  rintro ⟨B, h⟩
  have hr := New_ready [] []
  have hts : (New [] (([] : List Opt).map Opt.fn)).timestamp = false := rfl
  generalize New [] (([] : List Opt).map Opt.fn) = s at h hr hts
  have hparts := Unsign_parts B s (padSecret []) (bytesOf "a")
    (signature B (padSecret []) (bytesOf "a")) 47 hr (by decide) (signature_length B _ _)
  rw [if_pos rfl] at hparts
  obtain ⟨s1, hsign⟩ := h _ _ _ hparts
  rw [Sign_plain B s _ 0 _ hr hts] at hsign
  simp only [Except.ok.injEq, Prod.mk.injEq, List.append_assoc, List.singleton_append,
    List.append_cancel_left_eq, List.cons.injEq, and_true] at hsign
  exact absurd hsign.1 (by decide)

/-- C5 (amended): for a signer with timestamps off and every byte sequence `t`:
if `Unsign(t)` returns `(p, nil)`, then `p` has at least one byte and `t` is
`p`, then one byte, then the signature of `p`; `Unsign` does not look at that
one byte, and `t` is the token `Sign` produces for `p` exactly when it is the
separator `'.'`. -/
theorem accepted_token_shape (B : Blake3) (key : List Byte) (opts : List Opt)
    (calls : List Call) (s s' : Sword) (now : Int) (t p : List Byte)
    (hrun : (New key (opts.map Opt.fn)).run B calls = .ok s)
    (ht : s.timestamp = false)
    (hacc : s.Unsign B t = .ok ((some p, none), s')) :
    1 ≤ p.length ∧ ∃ x, t = p ++ x :: signature B (padSecret key) p ∧
      (x = 46 ↔ ∃ s1, s.Sign B now p = .ok (t, s1)) := by
  obtain ⟨hr, -, -⟩ := reached_ready B key opts calls s hrun
  obtain ⟨h45, hp, hsig, -⟩ := Unsign_accepts B s s' _ t p hr hacc
  obtain ⟨x, hx⟩ := token_parts t h45
  rw [← hp, hsig] at hx
  have hpl : p.length = t.length - 44 := by
    rw [hp, List.length_take]
    omega
  refine ⟨by omega, x, hx, ?_⟩
  rw [Sign_plain B s _ now p hr ht]
  constructor
  · intro h46
    exact ⟨s.after p, by rw [hx, h46]; simp⟩
  · rintro ⟨s1, hs1⟩
    rw [hx] at hs1
    simp only [Except.ok.injEq, Prod.mk.injEq, List.append_assoc, List.singleton_append,
      List.append_cancel_left_eq, List.cons.injEq, and_true] at hs1
    exact hs1.1.symm

/-- C5 (amended), at a concrete input: the token of the payload `"a"`. -/
theorem accepted_token_shape_witness :
    (New demoKey (([] : List Opt).map Opt.fn)).run demoBlake3 [] = .ok demoSigner ∧
    demoSigner.timestamp = false ∧
    demoSigner.Unsign demoBlake3 demoToken
      = .ok ((some (bytesOf "a"), none), demoSigner.after (bytesOf "a")) ∧
    1 ≤ (bytesOf "a").length ∧
    ∃ x, demoToken = bytesOf "a" ++ x :: signature demoBlake3 (padSecret demoKey) (bytesOf "a") ∧
      (x = 46 ↔ ∃ s1, demoSigner.Sign demoBlake3 0 (bytesOf "a") = .ok (demoToken, s1)) :=
  ⟨by decide, by decide, by decide,
    accepted_token_shape demoBlake3 demoKey [] [] demoSigner (demoSigner.after (bytesOf "a")) 0
      demoToken (bytesOf "a") (by decide) (by decide) (by decide)⟩

/-- C6: for every signer (built by `New`, after any calls) and every byte
sequence `t`: `Unsign(t)` returns `(nil, ErrShortToken)` exactly when
`len(t) < 45`, where 45 is 2 more than 43, the unpadded base64 length of the
32 bytes of the digest; a sequence that short gets no other answer, and the
signer is left as it was. -/
theorem short_token_iff (B : Blake3) (key : List Byte) (opts : List Opt)
    (calls : List Call) (s : Sword) (t : List Byte)
    (hrun : (New key (opts.map Opt.fn)).run B calls = .ok s) :
    (∃ hash, s.hash = some hash ∧ hash.Size = 32 ∧
      RawURLEncoding.EncodedLen hash.Size = 43) ∧
    ((∃ s', s.Unsign B t = .ok ((none, some .ErrShortToken), s')) ↔ t.length < 43 + 2) ∧
    (t.length < 43 + 2 → s.Unsign B t = .ok ((none, some .ErrShortToken), s)) := by
  obtain ⟨hr, -, -⟩ := reached_ready B key opts calls s hrun
  refine ⟨?_, ?_, ?_⟩
  · have hr' := hr
    unfold Sword.ready at hr'
    cases hs : s.hash with
    | none => simp [hs] at hr'
    | some hash =>
      simp only [hs] at hr'
      exact ⟨hash, rfl, hr'.1, by simp [Hasher.Size, hr'.1, RawURLEncoding.EncodedLen]⟩
  · rw [Unsign_eq B s _ t hr]
    constructor
    · rintro ⟨s', hs'⟩
      by_contra hlt
      rw [if_neg hlt] at hs'
      split_ifs at hs' <;> simp at hs'
    · intro hlt
      exact ⟨s, by rw [if_pos hlt]⟩
  · intro hlt
    rw [Unsign_eq B s _ t hr, if_pos hlt]

/-- C6, at a concrete input: the 13 bytes `"9yhD.QheV.k0W"`. -/
theorem short_token_iff_witness :
    (New demoKey (([] : List Opt).map Opt.fn)).run demoBlake3 [] = .ok demoSigner ∧
    (∃ hash, demoSigner.hash = some hash ∧ hash.Size = 32 ∧
      RawURLEncoding.EncodedLen hash.Size = 43) ∧
    ((∃ s', demoSigner.Unsign demoBlake3 (bytesOf "9yhD.QheV.k0W")
        = .ok ((none, some .ErrShortToken), s')) ↔ (bytesOf "9yhD.QheV.k0W").length < 43 + 2) ∧
    ((bytesOf "9yhD.QheV.k0W").length < 43 + 2 →
      demoSigner.Unsign demoBlake3 (bytesOf "9yhD.QheV.k0W")
        = .ok ((none, some .ErrShortToken), demoSigner)) :=
  ⟨by decide, short_token_iff demoBlake3 demoKey [] [] demoSigner (bytesOf "9yhD.QheV.k0W")
    (by decide)⟩

/-- C7: for every key, payload `p` and clock reading, on a signer built by
`New` (after any calls), with `signature` the 43-byte unpadded URL-safe base64
of the 32-byte keyed digest: with timestamps off `Sign(p)` is `p`, `"."`, the
signature of `p`, of length `len(p) + 44`; with timestamps on and
`now - epoch >= 0` it is `p`, `"."`, `E`, `"."`, the signature of `p ++ "." ++ E`,
where `E` is the base-58 numeral of `now - epoch`, which is what `encodeBase58`
writes into a buffer of `encodeBase58Len(now - epoch)` bytes. In every token
`Sign` returns, the payload bytes stand unchanged at the start. -/
theorem Sign_format (B : Blake3) (key : List Byte) (opts : List Opt) (calls : List Call)
    (s : Sword) (now : Int) (p : List Byte)
    (hrun : (New key (opts.map Opt.fn)).run B calls = .ok s) :
    (∀ m, (B.sum 32 (padSecret key) m).length = 32 ∧
      (signature B (padSecret key) m).length = 43) ∧
    (s.timestamp = false →
      ∃ s1, s.Sign B now p
          = .ok (p ++ bytesOf "." ++ signature B (padSecret key) p, s1) ∧
        (p ++ bytesOf "." ++ signature B (padSecret key) p).length = p.length + 44) ∧
    (s.timestamp = true → 0 ≤ wrapInt64 (now - s.epoch) →
      ∃ E s1, E = base58Numeral (wrapInt64 (now - s.epoch)).toNat ∧
        encodeBase58Len (wrapInt64 (now - s.epoch)) = .ok E.length ∧
        encodeBase58 (wrapInt64 (now - s.epoch)) (List.replicate E.length 0) = .ok E ∧
        s.Sign B now p = .ok (p ++ bytesOf "." ++ E ++ bytesOf "." ++
          signature B (padSecret key) (p ++ bytesOf "." ++ E), s1)) ∧
    (∀ t s1, s.Sign B now p = .ok (t, s1) → p <+: t) := by
  obtain ⟨hr, -, -⟩ := reached_ready B key opts calls s hrun
  refine ⟨fun m => ⟨B.length_sum _ _ _, signature_length B _ m⟩, ?_, ?_, ?_⟩
  · intro ht
    refine ⟨s.after p, by rw [bytesOf_dot]; exact Sign_plain B s _ now p hr ht, ?_⟩
    simp only [List.length_append, signature_length, bytesOf_dot, List.length_singleton]
  · intro ht hts
    refine ⟨base58Numeral (wrapInt64 (now - s.epoch)).toNat,
      s.after (p ++ [46] ++ base58Numeral (wrapInt64 (now - s.epoch)).toNat), rfl,
      encodeBase58Len_eq _ hts, ?_, ?_⟩
    · have := encodeBase58_eq _ hts [] (List.replicate
        (base58Numeral (wrapInt64 (now - s.epoch)).toNat).length 0)
        (List.length_replicate _ _)
      simpa using this
    · rw [bytesOf_dot]
      exact Sign_stamped B s _ now p hr ht hts
  · intro t s1 hsign
    obtain ⟨m, htm, -, h1, h2⟩ := Sign_ready B s s1 _ now p t hr hsign
    cases ht : s.timestamp with
    | false =>
      rw [htm, h1 ht]
      exact ⟨_, (List.append_assoc _ _ _).symm⟩
    | true =>
      rw [htm, (h2 ht).2]
      exact ⟨[46] ++ base58Numeral (wrapInt64 (now - s.epoch)).toNat ++ [46] ++
        signature B (padSecret key)
          (p ++ [46] ++ base58Numeral (wrapInt64 (now - s.epoch)).toNat), by simp⟩

/-- C7, at a concrete input: timestamps on, epoch 0, the clock at 1700000000
seconds, payload `"hi"`; the timestamp is `"3AdWLQ"`. -/
theorem Sign_format_witness :
    (New demoKey ([Opt.timestamp].map Opt.fn)).run demoBlake3 [] = .ok demoStamper ∧
    demoStamper.timestamp = true ∧ 0 ≤ wrapInt64 (1700000000 - demoStamper.epoch) ∧
    base58Numeral (wrapInt64 (1700000000 - demoStamper.epoch)).toNat = bytesOf "3AdWLQ" ∧
    ∃ E s1, E = base58Numeral (wrapInt64 (1700000000 - demoStamper.epoch)).toNat ∧
      encodeBase58Len (wrapInt64 (1700000000 - demoStamper.epoch)) = .ok E.length ∧
      encodeBase58 (wrapInt64 (1700000000 - demoStamper.epoch)) (List.replicate E.length 0)
        = .ok E ∧
      demoStamper.Sign demoBlake3 1700000000 (bytesOf "hi")
        = .ok (bytesOf "hi" ++ bytesOf "." ++ E ++ bytesOf "." ++
          signature demoBlake3 (padSecret demoKey) (bytesOf "hi" ++ bytesOf "." ++ E), s1) :=
  ⟨by decide, by decide, by decide, by simp [base58Numeral, demoStamper, wrapInt64, New, Timestamp, Opt.fn]; decide,
    (Sign_format demoBlake3 demoKey [Opt.timestamp] [] demoStamper 1700000000 (bytesOf "hi")
      (by decide)).2.2.1 (by decide) (by decide)⟩

/-! ## The dirty flag -/

/-- C8: `New` returns a signer with `dirty = false`; and with timestamps off,
after any sequence of earlier `Sign` and `Unsign` calls, `Sign(p)` returns the
token that the first `Sign(p)` of a freshly built signer with the same key
returns, namely `p`, `"."` and the signature of `p`, which depends on the key
and on `p` only. -/
theorem Sign_independent_of_history (B : Blake3) (key : List Byte) (opts opts' : List Opt)
    (calls : List Call) (now now' : Int) (p : List Byte)
    (ht : (New key (opts.map Opt.fn)).timestamp = false)
    (ht' : (New key (opts'.map Opt.fn)).timestamp = false) :
    (New key (opts.map Opt.fn)).dirty = false ∧
    ∃ s t s1 s1', (New key (opts.map Opt.fn)).run B calls = .ok s ∧
      s.Sign B now p = .ok (t, s1) ∧
      (New key (opts'.map Opt.fn)).Sign B now' p = .ok (t, s1') ∧
      t = p ++ bytesOf "." ++ signature B (padSecret key) p ∧
      s1.dirty = true := by
  refine ⟨New_dirty key opts, ?_⟩
  obtain ⟨s, hrun⟩ := run_plain B calls _ _ (New_ready key opts) ht
  obtain ⟨hr, hts, -⟩ := reached_ready B key opts calls s hrun
  exact ⟨s, _, _, _, hrun, Sign_plain B s _ now p hr (hts.trans ht),
    Sign_plain B _ _ now' p (New_ready key opts') ht', by rw [bytesOf_dot], rfl⟩

/-- C8, at a concrete input: the payload `"a"` signed after an earlier `Sign`
of `"x"` and an earlier `Unsign` of `"y"`. -/
theorem Sign_independent_of_history_witness :
    (New demoKey (([] : List Opt).map Opt.fn)).timestamp = false ∧
    (New demoKey ([Opt.epoch 5].map Opt.fn)).timestamp = false ∧
    (New demoKey (([] : List Opt).map Opt.fn)).dirty = false ∧
    ∃ s t s1 s1', (New demoKey (([] : List Opt).map Opt.fn)).run demoBlake3
        [Call.sign 7 (bytesOf "x"), Call.unsign (bytesOf "y")] = .ok s ∧
      s.Sign demoBlake3 1 (bytesOf "a") = .ok (t, s1) ∧
      (New demoKey ([Opt.epoch 5].map Opt.fn)).Sign demoBlake3 2 (bytesOf "a") = .ok (t, s1') ∧
      t = bytesOf "a" ++ bytesOf "." ++ signature demoBlake3 (padSecret demoKey) (bytesOf "a") ∧
      s1.dirty = true :=
  ⟨by decide, by decide,
    Sign_independent_of_history demoBlake3 demoKey [] [Opt.epoch 5]
      [Call.sign 7 (bytesOf "x"), Call.unsign (bytesOf "y")] 1 2 (bytesOf "a")
      (by decide) (by decide)⟩

/-! ## Timestamps -/

/-- C9: for a signer with timestamps on (built by `New`, after any calls),
`now - epoch >= 0` and every payload `p`, the empty one included:
`Unsign(Sign(p))` returns `(p ++ "." ++ E, nil)`, where `E` is the base-58
numeral of `now - epoch` that `encodeBase58` wrote; the timestamp is not
stripped. -/
theorem roundtrip_stamped (B : Blake3) (key : List Byte) (opts : List Opt)
    (calls : List Call) (s : Sword) (now : Int) (p : List Byte)
    (hrun : (New key (opts.map Opt.fn)).run B calls = .ok s)
    (ht : s.timestamp = true) (hts : 0 ≤ wrapInt64 (now - s.epoch)) :
    ∃ E t s1 s2,
      encodeBase58 (wrapInt64 (now - s.epoch))
        (List.replicate (base58Numeral (wrapInt64 (now - s.epoch)).toNat).length 0) = .ok E ∧
      E = base58Numeral (wrapInt64 (now - s.epoch)).toNat ∧
      s.Sign B now p = .ok (t, s1) ∧
      s1.Unsign B t = .ok ((some (p ++ bytesOf "." ++ E), none), s2) := by
  obtain ⟨hr, -, -⟩ := reached_ready B key opts calls s hrun
  have henc := encodeBase58_eq _ hts [] (List.replicate
    (base58Numeral (wrapInt64 (now - s.epoch)).toNat).length 0) (List.length_replicate _ _)
  have hE : encodeBase58 (wrapInt64 (now - s.epoch))
      (List.replicate (base58Numeral (wrapInt64 (now - s.epoch)).toNat).length 0)
      = .ok (base58Numeral (wrapInt64 (now - s.epoch)).toNat) := by simpa using henc
  have hsign := Sign_stamped B s _ now p hr ht hts
  have hun := Unsign_signed B
    (s.after (p ++ [46] ++ base58Numeral (wrapInt64 (now - s.epoch)).toNat)) _
    (p ++ [46] ++ base58Numeral (wrapInt64 (now - s.epoch)).toNat)
    (ready_after s _ _ hr)
    (by simp only [List.length_append, List.length_singleton]; omega)
  exact ⟨base58Numeral (wrapInt64 (now - s.epoch)).toNat, _, _, _, hE, rfl, hsign,
    by rw [bytesOf_dot]; exact hun⟩

/-- C9, at a concrete input: epoch 1293840000, the clock at 1700000000 seconds,
the empty payload. -/
theorem roundtrip_stamped_witness :
    (New demoKey ([Opt.epoch 1293840000, Opt.timestamp].map Opt.fn)).run demoBlake3 []
      = .ok (New demoKey ([Opt.epoch 1293840000, Opt.timestamp].map Opt.fn)) ∧
    (New demoKey ([Opt.epoch 1293840000, Opt.timestamp].map Opt.fn)).timestamp = true ∧
    0 ≤ wrapInt64 (1700000000 -
      (New demoKey ([Opt.epoch 1293840000, Opt.timestamp].map Opt.fn)).epoch) ∧
    ∃ E t s1 s2,
      encodeBase58 (wrapInt64 (1700000000 -
          (New demoKey ([Opt.epoch 1293840000, Opt.timestamp].map Opt.fn)).epoch))
        (List.replicate (base58Numeral (wrapInt64 (1700000000 -
          (New demoKey ([Opt.epoch 1293840000, Opt.timestamp].map Opt.fn)).epoch)).toNat).length
          0) = .ok E ∧
      E = base58Numeral (wrapInt64 (1700000000 -
          (New demoKey ([Opt.epoch 1293840000, Opt.timestamp].map Opt.fn)).epoch)).toNat ∧
      (New demoKey ([Opt.epoch 1293840000, Opt.timestamp].map Opt.fn)).Sign demoBlake3
        1700000000 [] = .ok (t, s1) ∧
      s1.Unsign demoBlake3 t = .ok ((some ([] ++ bytesOf "." ++ E), none), s2) :=
  ⟨by decide, by decide, by decide,
    roundtrip_stamped demoBlake3 demoKey [Opt.epoch 1293840000, Opt.timestamp] []
      (New demoKey ([Opt.epoch 1293840000, Opt.timestamp].map Opt.fn)) 1700000000 []
      (by decide) (by decide) (by decide)⟩

/-- C10 (the code fails): with the key `"AVerySecretString"`, the options
`Epoch(2000000000)` and `Timestamp`, and the clock at 1700000000 seconds, that
is before the epoch, `Sign` of the payload `"x"` does not return a token: under
every keyed hash it panics with an index out of range, `encodeBase58` reading
`encodeBase58Map[i]` at the negative `i = now - epoch = -300000000`. -/
theorem Sign_panics_before_epoch :
    wrapInt64 (1700000000 - 2000000000) = -300000000 ∧
    encodeBase58 (-300000000) [0] = .error .indexOutOfRange ∧
    ∀ B : Blake3,
      (New (bytesOf "AVerySecretString") [Epoch 2000000000, Timestamp]).Sign B 1700000000
        (bytesOf "x") = .error .indexOutOfRange := by
  refine ⟨by decide, by decide, fun B => ?_⟩
  exact Sign_negative B _ _ 1700000000 (bytesOf "x")
    (New_ready (bytesOf "AVerySecretString") [Opt.epoch 2000000000, Opt.timestamp])
    (by decide) (by decide)

/-! ## Key normalisation -/

theorem bytesOf_space : bytesOf " " = [32] := by decide

theorem padSecret_loop (n : Nat) (str : List Byte) :
    padSecret.loop n str = str ++ List.replicate n 32 := by
  induction n generalizing str with
  | zero => simp [padSecret.loop]
  | succ n ih =>
    rw [padSecret.loop, ih, bytesOf_space, List.replicate_succ]
    simp

theorem padSecret_short (k : List Byte) (h : k.length < 32) :
    padSecret k = k ++ List.replicate (32 - k.length) 32 := by
  rw [padSecret, if_pos h, padSecret_loop]

theorem padSecret_length_short (k : List Byte) (h : k.length < 32) :
    (padSecret k).length = 32 := by
  rw [padSecret_short k h, List.length_append, List.length_replicate]
  omega

theorem padSecret_long (k : List Byte) (h : 32 ≤ k.length) : padSecret k = k := by
  rw [padSecret, if_neg (by omega)]

/-- C11: for every key `k`: if `len(k) < 32` then `padSecret(k)` is `k` followed
by `32 - len(k)` space bytes (0x20), so it has exactly 32 bytes and `k` as a
prefix; if `len(k) >= 32` then `padSecret(k) = k`, neither padded nor
truncated. -/
theorem padSecret_spec (k : List Byte) :
    (k.length < 32 →
      padSecret k = k ++ List.replicate (32 - k.length) 0x20 ∧
      (padSecret k).length = 32 ∧ k <+: padSecret k) ∧
    (32 ≤ k.length → padSecret k = k) := by
  refine ⟨fun h => ?_, padSecret_long k⟩
  rw [padSecret_short k h]
  refine ⟨rfl, ?_, List.prefix_append _ _⟩
  rw [List.length_append, List.length_replicate]
  omega

/-- C11, at concrete inputs: the 17-byte key `"AVerySecretString"` and the
68-byte key of `TestNewSecretTooBig`. -/
theorem padSecret_spec_witness :
    (bytesOf "AVerySecretString").length < 32 ∧ 32 ≤ bigSecret.length ∧
    (padSecret (bytesOf "AVerySecretString")
        = bytesOf "AVerySecretString" ++ List.replicate (32 - (bytesOf "AVerySecretString").length) 0x20 ∧
      (padSecret (bytesOf "AVerySecretString")).length = 32 ∧
      bytesOf "AVerySecretString" <+: padSecret (bytesOf "AVerySecretString")) ∧
    padSecret bigSecret = bigSecret :=
  ⟨by decide, by decide, (padSecret_spec (bytesOf "AVerySecretString")).1 (by decide),
    (padSecret_spec bigSecret).2 (by decide)⟩

/-- C12 (the code fails): for the 68-byte key of `TestNewSecretTooBig`, `New`
hands all 68 bytes to `blake3.New`: `padSecret` returns the key as it is, and
the key of the hash context `New` installs is that key, which is longer than 64
bytes and differs from its 64-byte prefix. Nothing in `New` or `padSecret`
truncates. -/
theorem New_does_not_truncate :
    bigSecret.length = 68 ∧
    padSecret bigSecret = bigSecret ∧
    (New bigSecret []).hash = some (Blake3.New 32 bigSecret) ∧
    (Blake3.New 32 bigSecret).key = bigSecret ∧
    (Blake3.New 32 bigSecret).key.length = 68 ∧
    (Blake3.New 32 bigSecret).key ≠ bigSecret.take 64 := by
  refine ⟨by decide, by decide, by decide, rfl, by decide, by decide⟩

/-! ## The codec, decoding -/

theorem wrapInt64_eq (x : Int) (h0 : -2 ^ 63 ≤ x) (h1 : x < 2 ^ 63) : wrapInt64 x = x := by
  unfold wrapInt64
  omega

theorem wrapInt64_lt (x : Int) : wrapInt64 x < 2 ^ 63 := by
  unfold wrapInt64
  omega

theorem decodeMap_symbol :
    ∀ d, d < 58 →
      ((New.decodeMap decodeBase58Map.zero).getD (encodeBase58Map.getD d 0).val 0).val = d := by
  decide

theorem decodeBase58_snoc (m l : List Byte) (c : Byte) :
    decodeBase58 m (l ++ [c])
      = wrapInt64 (wrapInt64 (decodeBase58 m l * 58) + ((m.getD c.val 0).val : Int)) := by
  simp [decodeBase58, List.foldl_append]

theorem decodeBase58_nil (m : List Byte) : decodeBase58 m [] = 0 := rfl

/-- Decoding the base-58 numeral of a number below `2^63` gives the number, for
any decode map that sends each symbol of the alphabet to its index. -/
theorem decodeBase58_numeral_of (m : List Byte)
    (hm : ∀ d, d < 58 → (m.getD (encodeBase58Map.getD d 0).val 0).val = d)
    (n : Nat) (h : n < 2 ^ 63) :
    decodeBase58 m (base58Numeral n) = (n : Int) := by
  induction n using Nat.strong_induction_on with
  | _ n ih =>
    by_cases h58 : n < 58
    · have e := decodeBase58_snoc m [] (encodeBase58Map.getD n 0)
      rw [List.nil_append, decodeBase58_nil, Int.zero_mul, hm n h58] at e
      rw [base58Numeral_small n h58, e, wrapInt64_eq 0 (by omega) (by omega), Int.zero_add]
      exact wrapInt64_eq _ (by omega) (by omega)
    · rw [base58Numeral_step n (by omega), decodeBase58_snoc,
        ih (n / 58) (by omega) (by omega), hm _ (Nat.mod_lt _ (by norm_num))]
      rw [wrapInt64_eq (((n / 58 : Nat) : Int) * 58) (by omega) (by omega)]
      rw [wrapInt64_eq _ (by omega) (by omega)]
      omega

/-- Decoding the base-58 numeral of a number below `2^63` gives the number. -/
theorem decodeBase58_numeral (n : Nat) (h : n < 2 ^ 63) :
    decodeBase58 (New.decodeMap decodeBase58Map.zero) (base58Numeral n) = (n : Int) :=
  decodeBase58_numeral_of _ decodeMap_symbol n h

/-- C13: for every integer `n` with `0 <= n <= 2^63 - 1`: `encodeBase58` of `n`
into a buffer of exactly `encodeBase58Len(n)` bytes succeeds, and `decodeBase58`
of that buffer, with the decode map as `New` fills it, returns `n`. -/
theorem decode_encode (n : Int) (h0 : 0 ≤ n) (h1 : n ≤ 2 ^ 63 - 1) :
    ∃ l b, encodeBase58Len n = .ok l ∧ encodeBase58 n (List.replicate l 0) = .ok b ∧
      decodeBase58 (New.decodeMap decodeBase58Map.zero) b = n := by
  have henc := encodeBase58_eq n h0 [] (List.replicate (base58Numeral n.toNat).length 0)
    (List.length_replicate _ _)
  rw [List.nil_append, List.nil_append] at henc
  refine ⟨_, _, encodeBase58Len_eq n h0, henc, ?_⟩
  rw [decodeBase58_numeral n.toNat (by omega)]
  exact Int.toNat_of_nonneg h0

/-- C13, at a concrete input: the largest `int64`. -/
theorem decode_encode_witness :
    (0 : Int) ≤ 2 ^ 63 - 1 ∧ (2 ^ 63 - 1 : Int) ≤ 2 ^ 63 - 1 ∧
    ∃ l b, encodeBase58Len (2 ^ 63 - 1) = .ok l ∧
      encodeBase58 (2 ^ 63 - 1) (List.replicate l 0) = .ok b ∧
      decodeBase58 (New.decodeMap decodeBase58Map.zero) b = 2 ^ 63 - 1 :=
  ⟨by decide, by decide, decode_encode (2 ^ 63 - 1) (by decide) (by decide)⟩

/-- C14: for every `n >= 0` and every buffer `b` with
`len(b) >= encodeBase58Len(n)`: `encodeBase58(n, b)` completes without an index
failure; the result has the length of `b`, its last `encodeBase58Len(n)` bytes
are the base-58 numeral of `n`, most significant symbol first, and its leading
`len(b) - encodeBase58Len(n)` bytes are those of `b`; so the numeral of `n` has
exactly `encodeBase58Len(n)` symbols. -/
theorem encodeBase58_frame (n : Int) (b : List Byte) (l : Nat) (h0 : 0 ≤ n)
    (hl : encodeBase58Len n = .ok l) (hb : l ≤ b.length) :
    ∃ out, encodeBase58 n b = .ok out ∧ out.length = b.length ∧
      out.take (b.length - l) = b.take (b.length - l) ∧
      out.drop (b.length - l) = base58Numeral n.toNat ∧
      (base58Numeral n.toNat).length = l := by
  rw [encodeBase58Len_eq n h0] at hl
  simp only [Except.ok.injEq] at hl
  have hsplit : b = b.take (b.length - l) ++ b.drop (b.length - l) :=
    (List.take_append_drop _ _).symm
  have hdl : (b.drop (b.length - l)).length = (base58Numeral n.toNat).length := by
    rw [List.length_drop, hl]
    omega
  have htl : (b.take (b.length - l)).length = b.length - l := by
    rw [List.length_take]
    omega
  have henc := encodeBase58_eq n h0 (b.take (b.length - l)) (b.drop (b.length - l)) hdl
  rw [← hsplit] at henc
  refine ⟨_, henc, ?_, ?_, ?_, hl⟩
  · rw [List.length_append, htl, hl]
    omega
  · exact List.take_left' htl
  · exact List.drop_left' htl

/-- C14, at a concrete input: 3364 = 58^2 written into a buffer of 5 bytes. -/
theorem encodeBase58_frame_witness :
    (0 : Int) ≤ 3364 ∧ encodeBase58Len 3364 = .ok 3 ∧ 3 ≤ ([7, 7, 7, 7, 7] : List Byte).length ∧
    ∃ out, encodeBase58 3364 [7, 7, 7, 7, 7] = .ok out ∧
      out.length = ([7, 7, 7, 7, 7] : List Byte).length ∧
      out.take (([7, 7, 7, 7, 7] : List Byte).length - 3)
        = ([7, 7, 7, 7, 7] : List Byte).take (([7, 7, 7, 7, 7] : List Byte).length - 3) ∧
      out.drop (([7, 7, 7, 7, 7] : List Byte).length - 3) = base58Numeral (3364 : Int).toNat ∧
      (base58Numeral (3364 : Int).toNat).length = 3 :=
  ⟨by decide, by decide, by decide,
    encodeBase58_frame 3364 [7, 7, 7, 7, 7] 3 (by decide) (by decide) (by decide)⟩

/-! ## The codec, lengths -/

theorem base58Numeral_length (m : Nat) :
    (base58Numeral m).length = max 1 (Nat.digits 58 m).length := by
  unfold base58Numeral
  by_cases h0 : m = 0
  · simp [h0]
  · rw [if_neg h0, List.length_map, List.length_reverse, Nat.digits_len 58 m (by norm_num) h0]
    omega

theorem base58Numeral_length_eq_one (m : Nat) : (base58Numeral m).length = 1 ↔ m < 58 := by
  constructor
  · intro h
    by_contra h58
    rw [base58Numeral_step m (by omega), List.length_append, List.length_singleton] at h
    have := base58Numeral_length_pos (m / 58)
    omega
  · intro h
    rw [base58Numeral_small m h, List.length_singleton]

theorem base58Numeral_length_eq (m k : Nat) (hk : 2 ≤ k) :
    (base58Numeral m).length = k ↔ 58 ^ (k - 1) ≤ m ∧ m < 58 ^ k := by
  by_cases h0 : m = 0
  · subst h0
    have h1 : (base58Numeral 0).length = 1 := (base58Numeral_length_eq_one 0).mpr (by norm_num)
    have h2 : 0 < 58 ^ (k - 1) := Nat.pow_pos (by norm_num)
    constructor
    · intro h; omega
    · rintro ⟨h, -⟩; omega
  · have hlen : (base58Numeral m).length = Nat.log 58 m + 1 := by
      rw [base58Numeral_length, Nat.digits_len 58 m (by norm_num) h0]
      omega
    have hlog := Nat.log_eq_iff (b := 58) (m := k - 1) (n := m) (Or.inr ⟨by norm_num, h0⟩)
    have hk1 : k - 1 + 1 = k := by omega
    rw [hk1] at hlog
    rw [hlen, ← hlog]
    omega

/-- C15: for every `n >= 0`, `encodeBase58Len(n)` is the number of base-58
digits of `n`: it is 1 exactly when `n < 58` (also for `n = 0`), and for every
`k >= 2` it is `k` exactly when `58^(k-1) <= n < 58^k`. (So a timestamp has 6
symbols exactly when `58^5 <= now - epoch < 58^6` and 5 symbols exactly when
`58^4 <= now - epoch < 58^5`.) -/
theorem encodeBase58Len_digits (n : Int) (h0 : 0 ≤ n) :
    ∃ l, encodeBase58Len n = .ok l ∧
      l = max 1 (Nat.digits 58 n.toNat).length ∧
      (l = 1 ↔ n < 58) ∧
      ∀ k, 2 ≤ k → (l = k ↔ (58 : Int) ^ (k - 1) ≤ n ∧ n < 58 ^ k) := by
  refine ⟨_, encodeBase58Len_eq n h0, base58Numeral_length _, ?_, ?_⟩
  · rw [base58Numeral_length_eq_one]
    omega
  · intro k hk
    rw [base58Numeral_length_eq n.toNat k hk]
    lift n to ℕ using h0
    rw [Int.toNat_ofNat]
    constructor
    · rintro ⟨h1, h2⟩
      exact ⟨by exact_mod_cast h1, by exact_mod_cast h2⟩
    · rintro ⟨h1, h2⟩
      exact ⟨by exact_mod_cast h1, by exact_mod_cast h2⟩

/-- C15, at a concrete input: `now - epoch = 1700000000 - 1293840000`, the
time of the test `TestSignEpoch`, which has 5 symbols. -/
theorem encodeBase58Len_digits_witness :
    (0 : Int) ≤ 1700000000 - 1293840000 ∧
    encodeBase58Len (1700000000 - 1293840000) = .ok 5 ∧
    ∃ l, encodeBase58Len (1700000000 - 1293840000) = .ok l ∧
      l = max 1 (Nat.digits 58 (1700000000 - 1293840000 : Int).toNat).length ∧
      (l = 1 ↔ (1700000000 - 1293840000 : Int) < 58) ∧
      ∀ k, 2 ≤ k → (l = k ↔ (58 : Int) ^ (k - 1) ≤ 1700000000 - 1293840000 ∧
        (1700000000 - 1293840000 : Int) < 58 ^ k) :=
  ⟨by decide, by decide, encodeBase58Len_digits (1700000000 - 1293840000) (by decide)⟩

/-! ## The codec, positional value -/

set_option maxRecDepth 100000 in
theorem decodeMap_value :
    ∀ c : Byte, ((New.decodeMap decodeBase58Map.zero).getD c.val 0).val = base58Value c := by
  decide

theorem base58Value_lt (c : Byte) : base58Value c < 58 := by
  unfold base58Value
  split_ifs with h
  · rw [← encodeBase58Map_length]
    exact List.indexOf_lt_length.mpr h
  · norm_num

theorem positionalValue_snoc (l : List Byte) (c : Byte) :
    positionalValue (l ++ [c]) = 58 * positionalValue l + base58Value c := by
  unfold positionalValue
  simp only [List.length_append, List.length_singleton]
  rw [Finset.sum_range_succ, Finset.mul_sum]
  congr 1
  · apply Finset.sum_congr rfl
    intro i hi
    have hi' : i < l.length := Finset.mem_range.mp hi
    have e : l.length + 1 - 1 - i = (l.length - 1 - i) + 1 := by omega
    rw [List.getD_append l [c] 0 i hi', e, pow_succ]
    ring
  · have e : l.length + 1 - 1 - l.length = 0 := by omega
    rw [List.getD_append_right l [c] 0 l.length (le_refl _), e]
    simp

/-- Decoding computes the positional value as long as that fits an `int64`,
for any decode map that sends each byte to its base-58 value. -/
theorem decodeBase58_positional_of (m : List Byte)
    (hm : ∀ c : Byte, (m.getD c.val 0).val = base58Value c) (b : List Byte) :
    positionalValue b ≤ 2 ^ 63 - 1 → decodeBase58 m b = (positionalValue b : Int) := by
  induction b using List.reverseRecOn with
  | nil => intro _; rfl
  | append_singleton l c ih =>
    intro h
    rw [positionalValue_snoc] at h ⊢
    have hc := base58Value_lt c
    rw [decodeBase58_snoc, ih (by omega), hm c]
    rw [wrapInt64_eq ((positionalValue l : Int) * 58) (by omega) (by omega)]
    rw [wrapInt64_eq _ (by omega) (by omega)]
    push_cast
    ring

/-- C16: for every byte sequence `b` whose positional value is at most
`2^63 - 1`: `decodeBase58(b)`, with the decode map as `New` fills it, is the sum
over `i` of `value(b[i]) * 58^(len(b)-1-i)`, where `value(c)` is the index of
`c` in the 58-character alphabet and 0 for a byte outside the alphabet; the
empty sequence decodes to 0. -/
theorem decodeBase58_positional (b : List Byte) (h : positionalValue b ≤ 2 ^ 63 - 1) :
    decodeBase58 (New.decodeMap decodeBase58Map.zero) b
      = ((Finset.sum (Finset.range b.length) fun i =>
          base58Value (b.getD i 0) * 58 ^ (b.length - 1 - i) : Nat) : Int) ∧
    decodeBase58 (New.decodeMap decodeBase58Map.zero) [] = 0 :=
  ⟨decodeBase58_positional_of _ decodeMap_value b h, rfl⟩

/-- C16, at a concrete input: `"2_1"`, whose middle byte is outside the
alphabet and counts as 0; the value is `1 * 58^2`. -/
theorem decodeBase58_positional_witness :
    positionalValue (bytesOf "2_1") ≤ 2 ^ 63 - 1 ∧
    positionalValue (bytesOf "2_1") = 3364 ∧
    decodeBase58 (New.decodeMap decodeBase58Map.zero) (bytesOf "2_1")
      = ((Finset.sum (Finset.range (bytesOf "2_1").length) fun i =>
          base58Value ((bytesOf "2_1").getD i 0) * 58 ^ ((bytesOf "2_1").length - 1 - i) : Nat) :
            Int) ∧
    decodeBase58 (New.decodeMap decodeBase58Map.zero) [] = 0 :=
  ⟨by decide, by decide, decodeBase58_positional (bytesOf "2_1") (by decide)⟩

/-! ## The separator -/

theorem encodeURL_length : encodeURL.length = 64 := by decide

theorem dot_not_mem_encodeBase58Map : (46 : Byte) ∉ encodeBase58Map := by decide

theorem dot_not_mem_encodeURL : (46 : Byte) ∉ encodeURL := by decide

theorem getD_mem_encodeBase58Map (d : Nat) (h : d < 58) :
    encodeBase58Map.getD d 0 ∈ encodeBase58Map := by
  have hl : d < encodeBase58Map.length := by rw [encodeBase58Map_length]; exact h
  rw [List.getD_eq_getElem _ _ hl]
  exact List.getElem_mem hl

/-- Every symbol of a base-58 numeral is a character of the alphabet. -/
theorem base58Numeral_mem (n : Nat) : ∀ c ∈ base58Numeral n, c ∈ encodeBase58Map := by
  intro c hc
  unfold base58Numeral at hc
  by_cases h0 : n = 0
  · rw [if_pos h0, List.mem_singleton] at hc
    rw [hc]
    exact getD_mem_encodeBase58Map 0 (by norm_num)
  · rw [if_neg h0, List.mem_map] at hc
    obtain ⟨d, hd, rfl⟩ := hc
    rw [List.mem_reverse] at hd
    exact getD_mem_encodeBase58Map d (Nat.digits_lt_base (by norm_num) hd)

theorem encodeURL_at_mem (v : Nat) : encodeURL.at (v &&& 0x3F) ∈ encodeURL := by
  have hlt : v &&& 0x3F < encodeURL.length := by
    rw [encodeURL_length]
    have := @Nat.and_le_right v 0x3F
    omega
  unfold encodeURL.at
  rw [List.getD_eq_getElem _ _ hlt]
  exact List.getElem_mem hlt

/-- Every symbol of the unpadded URL-safe base64 of any bytes is a character of
the URL-safe alphabet. -/
theorem symbols_mem (src : List Byte) : ∀ c ∈ RawURLEncoding.symbols src, c ∈ encodeURL := by
  induction src using RawURLEncoding.symbols.induct with
  | case1 a b c rest ih =>
    intro x hx
    simp only [RawURLEncoding.symbols, List.mem_cons] at hx
    rcases hx with rfl | rfl | rfl | rfl | hx
    · exact encodeURL_at_mem _
    · exact encodeURL_at_mem _
    · exact encodeURL_at_mem _
    · exact encodeURL_at_mem _
    · exact ih x hx
  | case2 a b =>
    intro x hx
    simp only [RawURLEncoding.symbols, List.mem_cons, List.not_mem_nil, or_false] at hx
    rcases hx with rfl | rfl | rfl <;> exact encodeURL_at_mem _
  | case3 a =>
    intro x hx
    simp only [RawURLEncoding.symbols, List.mem_cons, List.not_mem_nil, or_false] at hx
    rcases hx with rfl | rfl <;> exact encodeURL_at_mem _
  | case4 =>
    intro x hx
    simp [RawURLEncoding.symbols] at hx

theorem dot_not_mem_base58Numeral (n : Nat) : (46 : Byte) ∉ base58Numeral n :=
  fun h => dot_not_mem_encodeBase58Map (base58Numeral_mem n 46 h)

theorem dot_not_mem_signature (B : Blake3) (key m : List Byte) :
    (46 : Byte) ∉ signature B key m :=
  fun h => dot_not_mem_encodeURL (symbols_mem _ 46 h)

/-- In bytes `m`, then `'.'`, then bytes `g` without `'.'`, the last `'.'` is
the one between `m` and `g`. -/
theorem lastDot_split (m g : List Byte) (hg : (46 : Byte) ∉ g) :
    afterLastDot (m ++ [46] ++ g) = g ∧ beforeLastDot (m ++ [46] ++ g) = m := by
  have hrev : (m ++ [46] ++ g).reverse = g.reverse ++ 46 :: m.reverse := by simp
  have hall : ∀ a ∈ g.reverse, (fun c : Byte => decide (c ≠ 46)) a = true := by
    intro a ha
    rw [List.mem_reverse] at ha
    simp only [ne_eq, decide_not, Bool.not_eq_eq_eq_not, Bool.not_true, decide_eq_false_iff_not]
    rintro rfl
    exact hg ha
  constructor
  · unfold afterLastDot
    rw [hrev, List.takeWhile_append_of_pos hall]
    simp [List.takeWhile_cons]
  · unfold beforeLastDot
    rw [hrev, List.dropWhile_append_of_pos hall]
    simp [List.dropWhile_cons]

/-- C17: in every token `Sign` produces, neither the timestamp nor the
signature contains `'.'`: the alphabet has 58 distinct characters, every symbol
`encodeBase58` writes for an `n >= 0` is one of them, and every signature byte
is in the URL-safe base64 alphabet (`A-Z`, `a-z`, `0-9`, `-`, `_`); neither
alphabet has `'.'`. Hence the last `'.'` of the token is the separator right
before the signature. -/
theorem separator_unambiguous (B : Blake3) (key : List Byte) (opts : List Opt)
    (calls : List Call) (s s1 : Sword) (now : Int) (p t : List Byte)
    (hrun : (New key (opts.map Opt.fn)).run B calls = .ok s)
    (hsign : s.Sign B now p = .ok (t, s1)) :
    (encodeBase58Map.Nodup ∧ encodeBase58Map.length = 58 ∧
      ∀ (n : Int) (l : Nat) (E : List Byte), 0 ≤ n → encodeBase58Len n = .ok l →
        encodeBase58 n (List.replicate l 0) = .ok E →
        ∀ c ∈ E, c ∈ encodeBase58Map ∧ c ≠ 46) ∧
    (∀ m, ∀ c ∈ signature B (padSecret key) m,
      c ∈ bytesOf "ABCDEFGHIJKLMNOPQRSTUVWXYZabcdefghijklmnopqrstuvwxyz0123456789-_" ∧
        c ≠ 46) ∧
    ∃ m, t = m ++ bytesOf "." ++ signature B (padSecret key) m ∧
      (s.timestamp = false → m = p) ∧
      (s.timestamp = true → ∃ E, m = p ++ bytesOf "." ++ E ∧ (46 : Byte) ∉ E) ∧
      afterLastDot t = signature B (padSecret key) m ∧ beforeLastDot t = m := by
  obtain ⟨hr, -, -⟩ := reached_ready B key opts calls s hrun
  refine ⟨⟨by decide, encodeBase58Map_length, ?_⟩, ?_, ?_⟩
  · intro n l E h0 hl hE c hc
    rw [encodeBase58Len_eq n h0] at hl
    simp only [Except.ok.injEq] at hl
    have henc := encodeBase58_eq n h0 [] (List.replicate l 0)
      (by rw [List.length_replicate, hl])
    rw [List.nil_append, List.nil_append, hE] at henc
    simp only [Except.ok.injEq] at henc
    rw [henc] at hc
    have hmem := base58Numeral_mem _ c hc
    refine ⟨hmem, ?_⟩
    rintro rfl
    exact dot_not_mem_encodeBase58Map hmem
  · intro m c hc
    have hmem : c ∈ encodeURL := symbols_mem _ c hc
    refine ⟨hmem, ?_⟩
    rintro rfl
    exact dot_not_mem_encodeURL hmem
  · obtain ⟨m, htm, -, h1, h2⟩ := Sign_ready B s s1 _ now p t hr hsign
    have hsplit := lastDot_split m (signature B (padSecret key) m)
      (dot_not_mem_signature B _ m)
    rw [← htm] at hsplit
    refine ⟨m, by rw [bytesOf_dot]; exact htm, h1, ?_, hsplit.1, hsplit.2⟩
    intro ht
    exact ⟨_, by rw [bytesOf_dot]; exact (h2 ht).2, dot_not_mem_base58Numeral _⟩

set_option maxRecDepth 100000 in
/-- C17, at a concrete input: the token of the payload `"a.b"` with timestamps
on, epoch 0 and the clock at 1700000000 seconds. -/
theorem separator_unambiguous_witness :
    (New demoKey ([Opt.timestamp].map Opt.fn)).run demoBlake3 [] = .ok demoStamper ∧
    demoStamper.Sign demoBlake3 1700000000 (bytesOf "a.b")
      = .ok (bytesOf "a.b.3AdWLQ." ++
          signature demoBlake3 (padSecret demoKey) (bytesOf "a.b.3AdWLQ"),
        demoStamper.after (bytesOf "a.b.3AdWLQ")) ∧
    ∃ m, bytesOf "a.b.3AdWLQ." ++ signature demoBlake3 (padSecret demoKey) (bytesOf "a.b.3AdWLQ")
        = m ++ bytesOf "." ++ signature demoBlake3 (padSecret demoKey) m ∧
      (demoStamper.timestamp = false → m = bytesOf "a.b") ∧
      (demoStamper.timestamp = true → ∃ E, m = bytesOf "a.b" ++ bytesOf "." ++ E ∧ (46 : Byte) ∉ E) ∧
      afterLastDot (bytesOf "a.b.3AdWLQ." ++
          signature demoBlake3 (padSecret demoKey) (bytesOf "a.b.3AdWLQ"))
        = signature demoBlake3 (padSecret demoKey) m ∧
      beforeLastDot (bytesOf "a.b.3AdWLQ." ++
          signature demoBlake3 (padSecret demoKey) (bytesOf "a.b.3AdWLQ")) = m :=
  ⟨by decide, by decide,
    (separator_unambiguous demoBlake3 demoKey [Opt.timestamp] [] demoStamper
      (demoStamper.after (bytesOf "a.b.3AdWLQ")) 1700000000 (bytesOf "a.b")
      (bytesOf "a.b.3AdWLQ." ++ signature demoBlake3 (padSecret demoKey) (bytesOf "a.b.3AdWLQ"))
      (by decide) (by decide)).2.2⟩

/-- C18: with timestamps off, `Sign` of the empty payload returns a 44-byte
token, the separator followed by the 43-byte signature, and `Unsign` of that
token returns `(nil, ErrShortToken)`; a payload survives the `Sign`/`Unsign`
round trip on such a signer exactly when it has at least one byte. -/
theorem empty_payload_not_recovered (B : Blake3) (key : List Byte) (opts : List Opt)
    (calls : List Call) (s : Sword) (now : Int)
    (hrun : (New key (opts.map Opt.fn)).run B calls = .ok s) (ht : s.timestamp = false) :
    (∃ t s1, s.Sign B now [] = .ok (t, s1) ∧
      t = bytesOf "." ++ signature B (padSecret key) [] ∧
      (signature B (padSecret key) []).length = 43 ∧ t.length = 44 ∧
      s1.Unsign B t = .ok ((none, some .ErrShortToken), s1)) ∧
    ∀ p : List Byte,
      (∃ t s1 s2, s.Sign B now p = .ok (t, s1) ∧ s1.Unsign B t = .ok ((some p, none), s2))
        ↔ 1 ≤ p.length := by
  obtain ⟨hr, -, -⟩ := reached_ready B key opts calls s hrun
  constructor
  · have hlen : ([] ++ [46] ++ signature B (padSecret key) []).length = 44 := by
      simp [signature_length]
    refine ⟨_, _, Sign_plain B s _ now [] hr ht, by rw [bytesOf_dot]; rfl,
      signature_length B _ _, hlen, ?_⟩
    rw [Unsign_eq B _ _ _ (ready_after s _ [] hr), if_pos (by rw [hlen]; norm_num)]
  · intro p
    constructor
    · rintro ⟨t, s1, s2, hsign, hun⟩
      obtain ⟨m, htm, hs1, hm, -⟩ := Sign_ready B s s1 _ now p t hr hsign
      have hr1 : s1.ready (padSecret key) := by rw [hs1]; exact ready_after s _ m hr
      obtain ⟨h45, -, -, -⟩ := Unsign_accepts B s1 s2 _ t p hr1 hun
      rw [htm, hm ht] at h45
      simp only [List.length_append, List.length_singleton, signature_length] at h45
      omega
    · intro hp
      exact ⟨_, _, _, Sign_plain B s _ now p hr ht,
        Unsign_signed B _ _ p (ready_after s _ p hr) hp⟩

/-- C18, at a concrete input: the signer of key `"k"` without options. -/
theorem empty_payload_not_recovered_witness :
    (New demoKey (([] : List Opt).map Opt.fn)).run demoBlake3 [] = .ok demoSigner ∧
    demoSigner.timestamp = false ∧
    ∃ t s1, demoSigner.Sign demoBlake3 0 [] = .ok (t, s1) ∧
      t = bytesOf "." ++ signature demoBlake3 (padSecret demoKey) [] ∧
      (signature demoBlake3 (padSecret demoKey) []).length = 43 ∧ t.length = 44 ∧
      s1.Unsign demoBlake3 t = .ok ((none, some .ErrShortToken), s1) :=
  ⟨by decide, by decide,
    (empty_payload_not_recovered demoBlake3 demoKey [] [] demoSigner 0 (by decide)
      (by decide)).1⟩

/-- C19: for a signer with timestamps on, `0 <= now - epoch`, and every payload
`p`, also one that itself contains `'.'`: in the data `d` that `Unsign(Sign(p))`
returns, the bytes after the last `'.'` of `d` decode with `decodeBase58` (the
decode map as `New` filled it) to exactly `now - epoch`, and the bytes before
that `'.'` are exactly `p`. -/
theorem timestamp_recoverable (B : Blake3) (key : List Byte) (opts : List Opt)
    (calls : List Call) (s : Sword) (now : Int) (p : List Byte)
    (hrun : (New key (opts.map Opt.fn)).run B calls = .ok s)
    (ht : s.timestamp = true) (hts : 0 ≤ wrapInt64 (now - s.epoch)) :
    ∃ t s1 d s2, s.Sign B now p = .ok (t, s1) ∧
      s1.Unsign B t = .ok ((some d, none), s2) ∧
      decodeBase58 (New.decodeMap decodeBase58Map.zero) (afterLastDot d)
        = wrapInt64 (now - s.epoch) ∧
      beforeLastDot d = p := by
  obtain ⟨hr, -, -⟩ := reached_ready B key opts calls s hrun
  have hsign := Sign_stamped B s _ now p hr ht hts
  have hun := Unsign_signed B
    (s.after (p ++ [46] ++ base58Numeral (wrapInt64 (now - s.epoch)).toNat)) _
    (p ++ [46] ++ base58Numeral (wrapInt64 (now - s.epoch)).toNat)
    (ready_after s _ _ hr)
    (by simp only [List.length_append, List.length_singleton]; omega)
  have hsplit := lastDot_split p (base58Numeral (wrapInt64 (now - s.epoch)).toNat)
    (dot_not_mem_base58Numeral _)
  refine ⟨_, _, _, _, hsign, hun, ?_, hsplit.2⟩
  have hlt := wrapInt64_lt (now - s.epoch)
  rw [hsplit.1, decodeBase58_numeral _ (by omega)]
  exact Int.toNat_of_nonneg hts

/-- C19, at a concrete input: the payload `"a.b"`, epoch 1293840000 and the
clock at 1700000000 seconds. -/
theorem timestamp_recoverable_witness :
    (New demoKey ([Opt.epoch 1293840000, Opt.timestamp].map Opt.fn)).run demoBlake3 []
      = .ok (New demoKey ([Opt.epoch 1293840000, Opt.timestamp].map Opt.fn)) ∧
    (New demoKey ([Opt.epoch 1293840000, Opt.timestamp].map Opt.fn)).timestamp = true ∧
    0 ≤ wrapInt64 (1700000000 -
      (New demoKey ([Opt.epoch 1293840000, Opt.timestamp].map Opt.fn)).epoch) ∧
    ∃ t s1 d s2,
      (New demoKey ([Opt.epoch 1293840000, Opt.timestamp].map Opt.fn)).Sign demoBlake3
        1700000000 (bytesOf "a.b") = .ok (t, s1) ∧
      s1.Unsign demoBlake3 t = .ok ((some d, none), s2) ∧
      decodeBase58 (New.decodeMap decodeBase58Map.zero) (afterLastDot d)
        = wrapInt64 (1700000000 -
          (New demoKey ([Opt.epoch 1293840000, Opt.timestamp].map Opt.fn)).epoch) ∧
      beforeLastDot d = bytesOf "a.b" :=
  ⟨by decide, by decide, by decide,
    timestamp_recoverable demoBlake3 demoKey [Opt.epoch 1293840000, Opt.timestamp] []
      (New demoKey ([Opt.epoch 1293840000, Opt.timestamp].map Opt.fn)) 1700000000
      (bytesOf "a.b") (by decide) (by decide) (by decide)⟩

/-! ## Keys that differ by trailing spaces -/

theorem padSecret_append_space (k : List Byte) (hk : k.length < 32) :
    padSecret (k ++ [0x20]) = padSecret k := by
  rw [padSecret_short k hk]
  by_cases h31 : k.length = 31
  · rw [padSecret_long (k ++ [0x20]) (by simp [h31]), h31]
    rfl
  · have hlen : (k ++ [0x20]).length < 32 := by
      rw [List.length_append, List.length_singleton]
      omega
    rw [padSecret_short _ hlen, List.length_append, List.length_singleton]
    have e : 32 - k.length = (32 - (k.length + 1)) + 1 := by omega
    rw [e, List.replicate_succ, List.append_assoc]
    rfl

/-- C20: for every key `k` shorter than 32 bytes, a signer built from `k` and
a signer built from `k` followed by one space byte (0x20) have the same
normalised key of 32 bytes; so, with timestamps off, they return the same token
for every payload and each accepts the tokens of the other. `padSecret` is not
injective on keys shorter than 32 bytes. -/
theorem space_padded_keys_equivalent (B : Blake3) (k : List Byte) (opts opts' : List Opt)
    (now now' : Int) (hk : k.length < 32)
    (ht : (New k (opts.map Opt.fn)).timestamp = false)
    (ht' : (New (k ++ [0x20]) (opts'.map Opt.fn)).timestamp = false) :
    padSecret (k ++ [0x20]) = padSecret k ∧ (padSecret k).length = 32 ∧
    (∀ h h', (New k (opts.map Opt.fn)).hash = some h →
      (New (k ++ [0x20]) (opts'.map Opt.fn)).hash = some h' → h.key = h'.key) ∧
    (∀ p, ∃ t s1 s1', (New k (opts.map Opt.fn)).Sign B now p = .ok (t, s1) ∧
      (New (k ++ [0x20]) (opts'.map Opt.fn)).Sign B now' p = .ok (t, s1')) ∧
    (∀ p : List Byte, 1 ≤ p.length → ∃ t s1 s2 t' s1' s2',
      (New k (opts.map Opt.fn)).Sign B now p = .ok (t, s1) ∧
      (New (k ++ [0x20]) (opts'.map Opt.fn)).Unsign B t = .ok ((some p, none), s2) ∧
      (New (k ++ [0x20]) (opts'.map Opt.fn)).Sign B now' p = .ok (t', s1') ∧
      (New k (opts.map Opt.fn)).Unsign B t' = .ok ((some p, none), s2')) ∧
    ∃ a b : List Byte, a.length < 32 ∧ b.length < 32 ∧ a ≠ b ∧ padSecret a = padSecret b := by
  have hpad := padSecret_append_space k hk
  have hr := New_ready k opts
  have hr' := New_ready (k ++ [0x20]) opts'
  rw [hpad] at hr'
  refine ⟨hpad, padSecret_length_short k hk, ?_, ?_, ?_, ?_⟩
  · intro h h' hh hh'
    have e1 : (New k (opts.map Opt.fn)).hash = some (Blake3.New 32 (padSecret k)) := rfl
    have e2 : (New (k ++ [0x20]) (opts'.map Opt.fn)).hash
        = some (Blake3.New 32 (padSecret (k ++ [0x20]))) := rfl
    rw [e1] at hh
    rw [e2, hpad] at hh'
    simp only [Option.some.injEq] at hh hh'
    rw [← hh, ← hh']
  · intro p
    exact ⟨_, _, _, Sign_plain B _ _ now p hr ht, Sign_plain B _ _ now' p hr' ht'⟩
  · intro p hp
    exact ⟨_, _, _, _, _, _, Sign_plain B _ _ now p hr ht, Unsign_signed B _ _ p hr' hp,
      Sign_plain B _ _ now' p hr' ht', Unsign_signed B _ _ p hr hp⟩
  · exact ⟨[], [0x20], by decide, by decide, by decide, padSecret_append_space [] (by decide) |>.symm⟩

/-- C20, at a concrete input: the keys `"k"` and `"k "`. -/
theorem space_padded_keys_equivalent_witness :
    demoKey.length < 32 ∧
    (New demoKey (([] : List Opt).map Opt.fn)).timestamp = false ∧
    (New (demoKey ++ [0x20]) (([] : List Opt).map Opt.fn)).timestamp = false ∧
    padSecret (demoKey ++ [0x20]) = padSecret demoKey ∧ (padSecret demoKey).length = 32 ∧
    ∀ p, ∃ t s1 s1', (New demoKey (([] : List Opt).map Opt.fn)).Sign demoBlake3 0 p = .ok (t, s1) ∧
      (New (demoKey ++ [0x20]) (([] : List Opt).map Opt.fn)).Sign demoBlake3 0 p = .ok (t, s1') :=
  ⟨by decide, by decide, by decide,
    (space_padded_keys_equivalent demoBlake3 demoKey [] [] 0 0 (by decide) (by decide)
      (by decide)).1,
    (space_padded_keys_equivalent demoBlake3 demoKey [] [] 0 0 (by decide) (by decide)
      (by decide)).2.1,
    (space_padded_keys_equivalent demoBlake3 demoKey [] [] 0 0 (by decide) (by decide)
      (by decide)).2.2.2.1⟩

end itsdangerous
